import Mathlib

/-!
# OmsuMaterials: Monte-Carlo integral example and dynamic-array walkthrough

Shallow embedding of

* `ff_191008.cpp`: the integrand `f` and the accumulation loop of `main`;
* `part2_dynamic_arrays.c`: the allocation and release sequence of
  `examples_of_dynamic_arrays`.

A C++ `double` is embedded as `Dbl K`: a number of an ordered field `K` or one
of the IEEE special values (infinities, not-a-number).  Every arithmetic
operation computes the exact result and then applies a rounding function
`R : K → Dbl K`, a parameter of the program: `binary64` is IEEE round to
nearest, ties to even, with gradual underflow and overflow to infinity;
`Dbl.exact` is arithmetic without rounding.  The `size_t` loop counter is a
natural number reduced modulo `2 ^ w`.
-/

namespace FF191008

/-- A `double`: a finite value, a signed infinity, or not-a-number.  The sign
of a zero is not represented. -/
inductive Dbl (K : Type) where
  | fin (x : K)
  | inf (negative : Bool)
  | nan
  deriving DecidableEq, Repr

namespace Dbl

variable {K : Type} [LinearOrderedField K]

/-- Arithmetic without rounding: every exact result is a value. -/
def exact (x : K) : Dbl K := fin x

/-- IEEE negation. -/
def neg : Dbl K → Dbl K
  | fin x => fin (-x)
  | inf s => inf (!s)
  | nan => nan

/-- IEEE addition: the exact sum of finite values, rounded by `R`. -/
def add (R : K → Dbl K) : Dbl K → Dbl K → Dbl K
  | fin x, fin y => R (x + y)
  | fin _, inf t => inf t
  | inf s, fin _ => inf s
  | inf s, inf t => if s = t then inf s else nan
  | nan, _ => nan
  | _, nan => nan

/-- IEEE subtraction. -/
def sub (R : K → Dbl K) (x y : Dbl K) : Dbl K := add R x (neg y)

/-- IEEE multiplication: the exact product of finite values, rounded by `R`;
zero times infinity is not-a-number. -/
def mul (R : K → Dbl K) : Dbl K → Dbl K → Dbl K
  | fin x, fin y => R (x * y)
  | fin x, inf t => if x = 0 then nan else inf (xor (decide (x < 0)) t)
  | inf s, fin y => if y = 0 then nan else inf (xor s (decide (y < 0)))
  | inf s, inf t => inf (xor s t)
  | nan, _ => nan
  | _, nan => nan

/-- IEEE division: the exact quotient of finite values, rounded by `R`; a
zero divisor is the positive zero (the only zero divisor of the program is a
converted unsigned integer). -/
def div (R : K → Dbl K) : Dbl K → Dbl K → Dbl K
  | fin x, fin y =>
      if y = 0 then (if x = 0 then nan else inf (decide (x < 0))) else R (x / y)
  | fin _, inf _ => fin 0
  | inf s, fin y => inf (xor s (decide (y < 0)))
  | inf _, inf _ => nan
  | nan, _ => nan
  | _, nan => nan

/-- Conversion of an unsigned integer to `double`, rounded by `R`. -/
def ofNat (R : K → Dbl K) (n : Nat) : Dbl K := R (n : K)

/-- The `+` of doubles under the rounding `R`. -/
def addInst (R : K → Dbl K) : Add (Dbl K) := ⟨add R⟩

/-- The `*` of doubles under the rounding `R`. -/
def mulInst (R : K → Dbl K) : Mul (Dbl K) := ⟨mul R⟩

/-- A finite double. -/
def IsFinite : Dbl K → Prop
  | fin _ => True
  | inf _ => False
  | nan => False

/-- A double that is a finite value `>= 0` or `+∞`. -/
def NonNeg : Dbl K → Prop
  | fin x => 0 ≤ x
  | inf s => s = false
  | nan => False

/-- A double that is a finite value `<= 0` or `-∞`. -/
def NonPos : Dbl K → Prop
  | fin x => x ≤ 0
  | inf s => s = true
  | nan => False

end Dbl

/-- What the program's arithmetic uses of an IEEE rounding: zero is
representable, rounding commutes with negation, and a value `>= 0` rounds to
a finite value `>= 0` or overflows to `+∞`. -/
structure IsRounding {K : Type} [LinearOrderedField K] (R : K → Dbl K) : Prop where
  zero : R 0 = Dbl.fin 0
  neg : ∀ x, R (-x) = Dbl.neg (R x)
  nonneg : ∀ x, 0 ≤ x → Dbl.NonNeg (R x)

/-- Every count from `1` to below `2 ^ w` converts to a positive finite
double. -/
def CountsConvert {K : Type} [LinearOrderedField K] (R : K → Dbl K) (w : Nat) : Prop :=
  ∀ k : Nat, 0 < k → k < 2 ^ w → ∃ m : K, 0 < m ∧ R (k : K) = Dbl.fin m

/-- Rounding to the nearest integer, ties to the even one. -/
def roundHalfEven (t : ℚ) : ℤ :=
  if t - ⌊t⌋ < 1 / 2 then ⌊t⌋
  else if 1 / 2 < t - ⌊t⌋ then ⌊t⌋ + 1
  else if ⌊t⌋ % 2 = 0 then ⌊t⌋ else ⌊t⌋ + 1

/-- The binary exponent of the binary64 format for `x`: `⌊log₂ |x|⌋`, and
`-1022` throughout the subnormal range. -/
def binary64_exponent (x : ℚ) : ℤ := max (Int.log 2 |x|) (-1022)

/-- The magnitude of `x` rounded to 53 significant bits at its exponent. -/
def binary64_magnitude (x : ℚ) : ℚ :=
  (roundHalfEven (|x| / 2 ^ (binary64_exponent x - 52)) : ℚ) * 2 ^ (binary64_exponent x - 52)

/-- IEEE 754 binary64 rounding of an exact value: round to nearest, ties to
even, gradual underflow, overflow to infinity from `2 ^ 1024 - 2 ^ 970`. -/
def binary64 (x : ℚ) : Dbl ℚ :=
  if 2 ^ 1024 ≤ binary64_magnitude x then Dbl.inf (decide (x < 0))
  else Dbl.fin (if x < 0 then -binary64_magnitude x else binary64_magnitude x)

/-- The integrand `double f(double x) { return x + x*x + x*x*x; }`, for any
number type with `+` and `*`. -/
def f {D : Type} [Add D] [Mul D] (x : D) : D := x + x * x + x * x * x

/-- Variables of the loop of `main`, with the list of the values the sampler
has returned so far. -/
structure LoopState (G K : Type) where
  i : Nat
  sum : Dbl K
  gen : G
  drawn : List (Dbl K)

/-- What `main` has done when it returns: the printed value, the final `sum`
and the values drawn from the sampler, in order. -/
structure Report (K : Type) where
  printed : Dbl K
  sum : Dbl K
  drawn : List (Dbl K)
  deriving DecidableEq, Repr

section Program

variable {G K : Type} [LinearOrderedField K]

/-- The integrand `f` on doubles, with `+` and `*` rounded by `R`. -/
def f_dbl (R : K → Dbl K) (x : Dbl K) : Dbl K :=
  @f (Dbl K) (Dbl.addInst R) (Dbl.mulInst R) x

/-- One test of `i <= count_nums` in
`for (size_t i = 1; i <= count_nums; i++) { xi = rand_a_b_incl(a, b); sum += f(xi); }`:
`none` when the test fails (the loop is left), else the state after the body
and `i++` on a `w`-bit counter.  The sampler `rand_a_b_incl` of `ffhelpers.h`
is a parameter acting on a generator state. -/
def loop_step (R : K → Dbl K) (w : Nat) (rand_a_b_incl : G → Dbl K → Dbl K → Dbl K × G)
    (a b : Dbl K) (count_nums : Nat) (s : LoopState G K) : Option (LoopState G K) :=
  if s.i ≤ count_nums then
    let r := rand_a_b_incl s.gen a b
    some { i := (s.i + 1) % 2 ^ w, sum := Dbl.add R s.sum (f_dbl R r.1), gen := r.2,
           drawn := s.drawn ++ [r.1] }
  else none

/-- The loop run for at most `fuel` tests of its condition: `some s` when the
loop has been left in state `s`, `none` when it is still running. -/
def loop (R : K → Dbl K) (w : Nat) (rand_a_b_incl : G → Dbl K → Dbl K → Dbl K × G)
    (a b : Dbl K) (count_nums : Nat) : Nat → LoopState G K → Option (LoopState G K)
  | 0, _ => none
  | fuel + 1, s =>
    match loop_step R w rand_a_b_incl a b count_nums s with
    | none => some s
    | some s' => loop R w rand_a_b_incl a b count_nums fuel s'

/-- The computation of `main` after its three inputs are read:
`sum = 0.0`, the loop, then `print(((b - a) / count_nums) * sum)`.
`none`: the loop is still running after `fuel` tests. -/
def main (R : K → Dbl K) (w : Nat) (rand_a_b_incl : G → Dbl K → Dbl K → Dbl K × G) (g : G)
    (a b : Dbl K) (count_nums : Nat) (fuel : Nat) : Option (Report K) :=
  match loop R w rand_a_b_incl a b count_nums fuel
      { i := 1 % 2 ^ w, sum := Dbl.fin 0, gen := g, drawn := [] } with
  | none => none
  | some s =>
    some { printed := Dbl.mul R (Dbl.div R (Dbl.sub R b a) (Dbl.ofNat R count_nums)) s.sum,
           sum := s.sum, drawn := s.drawn }

/-- The first `n` values the sampler returns from generator state `g`. -/
def samples (rand_a_b_incl : G → Dbl K → Dbl K → Dbl K × G) (a b : Dbl K) :
    Nat → G → List (Dbl K)
  | 0, _ => []
  | n + 1, g => (rand_a_b_incl g a b).1 :: samples rand_a_b_incl a b n (rand_a_b_incl g a b).2

/-- The running sum of the program over a list of drawn values. -/
def sumOver (R : K → Dbl K) (xs : List (Dbl K)) : Dbl K :=
  xs.foldl (fun acc x => Dbl.add R acc (f_dbl R x)) (Dbl.fin 0)

/-- The report of `main` in closed form. -/
def closedReport (R : K → Dbl K) (rand : G → Dbl K → Dbl K → Dbl K × G) (g : G)
    (a b : Dbl K) (n : Nat) : Report K :=
  { printed := Dbl.mul R (Dbl.div R (Dbl.sub R b a) (Dbl.ofNat R n))
      (sumOver R (samples rand a b n g)),
    sum := sumOver R (samples rand a b n g),
    drawn := samples rand a b n g }

/-- The antiderivative of the specification: `F x = x^2/2 + x^3/3 + x^4/4`. -/
def F {D : Type} [Field D] (x : D) : D := x ^ 2 / 2 + x ^ 3 / 3 + x ^ 4 / 4

/-- The estimate in the words of the specification:
`((b - a) / n) * (f x1 + ... + f xn)` in exact arithmetic. -/
def estimate (a b : K) (xs : List K) : K :=
  ((b - a) / (xs.length : K)) * (xs.map f).sum

/-- A sampler for examples that replays a recorded sequence: the generator
state is the list of values still to be returned. -/
def replaySampler (g : List ℚ) (_a _b : Dbl ℚ) : Dbl ℚ × List ℚ :=
  (Dbl.fin (g.headD 0), g.tail)

/-- A sampler that returns the terms of a sequence `x` in order: the
generator state is the number of calls made so far. -/
def streamSampler (x : Nat → K) (g : Nat) (_a _b : Dbl K) : Dbl K × Nat :=
  (Dbl.fin (x g), g + 1)

/-- The unit circle `ℝ / ℤ` has positive period. -/
instance fact_zero_lt_one : Fact ((0 : ℝ) < 1) := ⟨zero_lt_one⟩

/-- The Haar measure of the unit circle is a probability measure. -/
instance isProbabilityMeasure_circle :
    MeasureTheory.IsProbabilityMeasure (MeasureTheory.volume : MeasureTheory.Measure UnitAddCircle) :=
  ⟨by simp⟩

end Program

end FF191008

namespace DynamicArrays

/-- The allocator seen from `examples_of_dynamic_arrays`: blocks are numbered
in the order they are handed out; `live` are the blocks currently allocated,
`released` has one entry for each release of a block. -/
structure Heap where
  next : Nat
  live : List Nat
  released : List Nat
  deriving DecidableEq, Repr

/-- A pointer returned by the allocator: `none` is `NULL`. -/
abbrev Ptr := Option Nat

/-- Library `malloc(size)`: a new block, or `NULL` and an unchanged heap. -/
def malloc (ok : Bool) (h : Heap) : Ptr × Heap :=
  if ok then (some h.next, { h with next := h.next + 1, live := h.next :: h.live })
  else (none, h)

/-- Library `calloc(num, size)`: as `malloc` for the bookkeeping of blocks. -/
def calloc (ok : Bool) (h : Heap) : Ptr × Heap := malloc ok h

/-- Library `free(ptr)`: releases the block; `free(NULL)` does nothing. -/
def free (p : Ptr) (h : Heap) : Heap :=
  match p with
  | none => h
  | some b => { h with live := h.live.erase b, released := b :: h.released }

/-- What a call of `realloc(ptr, size)` with a nonzero size does. -/
inductive ReallocOutcome where
  | failed
  | resizedInPlace
  | moved
  deriving DecidableEq, Repr

/-- Library `realloc(ptr, size)`, `size` nonzero: on failure `NULL` is returned and the
block of `ptr` stays allocated; on success the block is kept, or replaced by
a new block and released. -/
def realloc (out : ReallocOutcome) (p : Ptr) (h : Heap) : Ptr × Heap :=
  match out with
  | .failed => (none, h)
  | .resizedInPlace =>
    match p with
    | some b => (some b, h)
    | none => malloc true h
  | .moved =>
    let r := malloc true h
    (r.1, free p r.2)

/-- The allocations, null checks and releases of `examples_of_dynamic_arrays`,
in source order; the loops that fill and print the arrays do not allocate.
The results of the four allocation calls are parameters. -/
def examples_of_dynamic_arrays (malloc1 malloc2 calloc3 : Bool) (realloc4 : ReallocOutcome)
    (h : Heap) : Heap :=
  let r1 := malloc malloc1 h
  let f_arr := r1.1
  if f_arr = none then r1.2
  else
    let r2 := malloc malloc2 r1.2
    let i_arr1 := r2.1
    if i_arr1 = none then free f_arr r2.2
    else
      let r3 := calloc calloc3 r2.2
      let i_arr2 := r3.1
      if i_arr2 = none then free i_arr1 (free f_arr r3.2)
      else
        let r4 := realloc realloc4 i_arr2 r3.2
        let i_arr2 := r4.1
        if i_arr2 = none then free i_arr1 (free f_arr r4.2)
        else free i_arr2 (free i_arr1 (free f_arr r4.2))

/-- The heap before the call. -/
def emptyHeap : Heap := { next := 0, live := [], released := [] }

/-- Every block handed out between heap `h0` and heap `h` has been released
exactly once and is no longer allocated. -/
def allReleasedOnce (h0 h : Heap) : Bool :=
  (List.range' h0.next (h.next - h0.next)).all
    (fun b => h.released.count b == 1 && !h.live.contains b)

end DynamicArrays

namespace FF191008

/-! ## Arithmetic of doubles -/

namespace Dbl

variable {K : Type} [LinearOrderedField K]

theorem add_exact (x y : K) : add exact (fin x) (fin y) = fin (x + y) := rfl

theorem sub_exact (x y : K) : sub exact (fin x) (fin y) = fin (x - y) := by
  show exact (x + -y) = fin (x - y)
  rw [exact, sub_eq_add_neg]

theorem mul_exact (x y : K) : mul exact (fin x) (fin y) = fin (x * y) := rfl

theorem div_exact (x y : K) (hy : y ≠ 0) : div exact (fin x) (fin y) = fin (x / y) := by
  simp [div, hy, exact]

theorem sub_fin (R : K → Dbl K) (x y : K) : sub R (fin x) (fin y) = R (x - y) := by
  show R (x + -y) = R (x - y)
  rw [sub_eq_add_neg]

/-- Whatever is divided by zero and then multiplied by zero is not-a-number. -/
theorem div_zero_mul_zero (R : K → Dbl K) (d : Dbl K) :
    mul R (div R d (fin 0)) (fin 0) = (nan : Dbl K) := by
  cases d with
  | fin x =>
    by_cases hx : x = 0
    · simp [div, mul, hx]
    · simp [div, mul, hx]
  | inf s => simp [div, mul]
  | nan => simp [div, mul]

theorem neg_twice (d : Dbl K) : neg (neg d) = d := by
  cases d <;> simp [neg]

/-- Zero times a double: zero if it is finite, not-a-number otherwise. -/
theorem zero_mul_cases (R : K → Dbl K) (hzero : R 0 = fin 0) (d : Dbl K) :
    (IsFinite d → mul R (fin 0) d = fin 0) ∧ (¬ IsFinite d → mul R (fin 0) d = nan) := by
  cases d with
  | fin x => simp [mul, IsFinite, hzero]
  | inf s => simp [mul, IsFinite]
  | nan => simp [mul, IsFinite]

/-- With a symmetric rounding, negating the dividend negates the quotient. -/
theorem div_neg_left (R : K → Dbl K) (hneg : ∀ x, R (-x) = neg (R x)) (d e : Dbl K) :
    div R (neg d) e = neg (div R d e) := by
  cases d with
  | fin x =>
    cases e with
    | fin y =>
      by_cases hy : y = 0
      · by_cases hx : x = 0
        · simp [div, neg, hy, hx]
        · rcases lt_or_gt_of_ne hx with h | h
          · simp [div, neg, hy, hx, h, h.le, not_lt.2 h.le]
          · simp [div, neg, hy, hx, h, not_lt.2 h.le]
      · simp only [div, neg, hy, if_false, neg_div, hneg]
    | inf t => simp [div, neg]
    | nan => simp [div, neg]
  | inf s =>
    cases e with
    | fin y => cases s <;> simp [div, neg]
    | inf t => simp [div, neg]
    | nan => simp [div, neg]
  | nan => cases e <;> simp [div, neg]

/-- With a symmetric rounding, negating a factor negates the product. -/
theorem mul_neg_left (R : K → Dbl K) (hneg : ∀ x, R (-x) = neg (R x)) (d e : Dbl K) :
    mul R (neg d) e = neg (mul R d e) := by
  cases d with
  | fin x =>
    cases e with
    | fin y => simp only [mul, neg, neg_mul, hneg]
    | inf t =>
      by_cases hx : x = 0
      · simp [mul, neg, hx]
      · rcases lt_or_gt_of_ne hx with h | h
        · cases t <;> simp [mul, neg, hx, h, not_lt.2 h.le]
        · cases t <;> simp [mul, neg, hx, h, not_lt.2 h.le]
    | nan => simp [mul, neg]
  | inf s =>
    cases e with
    | fin y =>
      by_cases hy : y = 0
      · simp [mul, neg, hy]
      · cases s <;> simp [mul, neg, hy]
    | inf t => cases s <;> cases t <;> simp [mul, neg]
    | nan => simp [mul, neg]
  | nan => cases e <;> simp [mul, neg]

end Dbl

section Signs

variable {K : Type} [LinearOrderedField K] {R : K → Dbl K}

theorem IsRounding.nonpos (hR : IsRounding R) (x : K) (hx : x ≤ 0) : Dbl.NonPos (R x) := by
  have h := hR.nonneg (-x) (neg_nonneg.2 hx)
  have e : R x = Dbl.neg (R (-x)) := by rw [← hR.neg, neg_neg]
  rw [e]
  cases h' : R (-x) with
  | fin y => rw [h'] at h; simpa [Dbl.neg, Dbl.NonPos, Dbl.NonNeg] using h
  | inf s => rw [h'] at h; simpa [Dbl.neg, Dbl.NonPos, Dbl.NonNeg] using h
  | nan => rw [h'] at h; exact h.elim

theorem nonneg_add (hR : IsRounding R) {d e : Dbl K} (hd : Dbl.NonNeg d) (he : Dbl.NonNeg e) :
    Dbl.NonNeg (Dbl.add R d e) := by
  cases d with
  | fin x =>
    cases e with
    | fin y => exact hR.nonneg _ (add_nonneg hd he)
    | inf t => simpa [Dbl.add, Dbl.NonNeg] using he
    | nan => exact he.elim
  | inf s =>
    cases e with
    | fin y => simpa [Dbl.add, Dbl.NonNeg] using hd
    | inf t =>
      simp only [Dbl.NonNeg] at hd he
      simp [Dbl.add, Dbl.NonNeg, hd, he]
    | nan => exact he.elim
  | nan => exact hd.elim

/-- A nonnegative double times a positive finite value. -/
theorem nonneg_mul_pos (hR : IsRounding R) {d : Dbl K} (hd : Dbl.NonNeg d) {x : K}
    (hx : 0 < x) : Dbl.NonNeg (Dbl.mul R d (Dbl.fin x)) := by
  cases d with
  | fin y => exact hR.nonneg _ (mul_nonneg hd hx.le)
  | inf s =>
    simp only [Dbl.NonNeg] at hd
    simp [Dbl.mul, Dbl.NonNeg, hd, hx.ne', not_lt.2 hx.le]
  | nan => exact hd.elim

/-- The integrand at a positive value is nonnegative or `+∞`. -/
theorem f_dbl_nonneg (hR : IsRounding R) {x : K} (hx : 0 < x) :
    Dbl.NonNeg (f_dbl R (Dbl.fin x)) := by
  have hxx : Dbl.NonNeg (Dbl.mul R (Dbl.fin x) (Dbl.fin x)) :=
    nonneg_mul_pos hR (show Dbl.NonNeg (Dbl.fin x) from hx.le) hx
  have h1 : Dbl.NonNeg (Dbl.add R (Dbl.fin x) (Dbl.mul R (Dbl.fin x) (Dbl.fin x))) :=
    nonneg_add hR (show Dbl.NonNeg (Dbl.fin x) from hx.le) hxx
  exact nonneg_add hR h1 (nonneg_mul_pos hR hxx hx)

theorem foldl_nonneg (hR : IsRounding R) (xs : List K) (hpos : ∀ x ∈ xs, 0 < x) (acc : Dbl K)
    (hacc : Dbl.NonNeg acc) :
    Dbl.NonNeg ((xs.map Dbl.fin).foldl (fun acc x => Dbl.add R acc (f_dbl R x)) acc) := by
  induction xs generalizing acc with
  | nil => simpa using hacc
  | cons x xs ih =>
    simp only [List.map_cons, List.foldl_cons]
    exact ih (fun y hy => hpos y (List.mem_cons_of_mem x hy)) _
      (nonneg_add hR hacc (f_dbl_nonneg hR (hpos x (List.mem_cons_self x xs))))

/-- The running sum over positive samples is nonnegative or `+∞`. -/
theorem sumOver_nonneg (hR : IsRounding R) (xs : List K) (hpos : ∀ x ∈ xs, 0 < x) :
    Dbl.NonNeg (sumOver R (xs.map Dbl.fin)) :=
  foldl_nonneg hR xs hpos _ (show Dbl.NonNeg (Dbl.fin (0 : K)) from le_refl 0)

theorem nonneg_div_pos (hR : IsRounding R) {d : Dbl K} (hd : Dbl.NonNeg d) {m : K}
    (hm : 0 < m) : Dbl.NonNeg (Dbl.div R d (Dbl.fin m)) := by
  cases d with
  | fin y =>
    simp only [Dbl.div, hm.ne', if_false]
    exact hR.nonneg _ (div_nonneg hd hm.le)
  | inf s =>
    simp only [Dbl.NonNeg] at hd
    simp [Dbl.div, Dbl.NonNeg, hd, not_lt.2 hm.le]
  | nan => exact hd.elim

theorem nonpos_div_pos (hR : IsRounding R) {d : Dbl K} (hd : Dbl.NonPos d) {m : K}
    (hm : 0 < m) : Dbl.NonPos (Dbl.div R d (Dbl.fin m)) := by
  cases d with
  | fin y =>
    simp only [Dbl.div, hm.ne', if_false]
    exact hR.nonpos _ (div_nonpos_of_nonpos_of_nonneg hd hm.le)
  | inf s =>
    simp only [Dbl.NonPos] at hd
    simp [Dbl.div, Dbl.NonPos, hd, not_lt.2 hm.le]
  | nan => exact hd.elim

/-- A product of two nonnegative doubles is nonnegative, `+∞` or
not-a-number (zero times infinity). -/
theorem nonneg_mul_nonneg (hR : IsRounding R) {d e : Dbl K} (hd : Dbl.NonNeg d)
    (he : Dbl.NonNeg e) : Dbl.NonNeg (Dbl.mul R d e) ∨ Dbl.mul R d e = Dbl.nan := by
  cases d with
  | fin x =>
    cases e with
    | fin y => exact Or.inl (hR.nonneg _ (mul_nonneg hd he))
    | inf t =>
      simp only [Dbl.NonNeg] at hd he
      by_cases hx : x = 0
      · right; simp [Dbl.mul, hx]
      · left
        have : ¬ x < 0 := not_lt.2 hd
        simp [Dbl.mul, Dbl.NonNeg, hx, he, this]
    | nan => exact he.elim
  | inf s =>
    cases e with
    | fin y =>
      simp only [Dbl.NonNeg] at hd he
      by_cases hy : y = 0
      · right; simp [Dbl.mul, hy]
      · left
        have : ¬ y < 0 := not_lt.2 he
        simp [Dbl.mul, Dbl.NonNeg, hy, hd, this]
    | inf t =>
      simp only [Dbl.NonNeg] at hd he
      left; simp [Dbl.mul, Dbl.NonNeg, hd, he]
    | nan => exact he.elim
  | nan => exact hd.elim

/-- A product of a nonpositive and a nonnegative double is nonpositive, `-∞`
or not-a-number. -/
theorem nonpos_mul_nonneg (hR : IsRounding R) {d e : Dbl K} (hd : Dbl.NonPos d)
    (he : Dbl.NonNeg e) : Dbl.NonPos (Dbl.mul R d e) ∨ Dbl.mul R d e = Dbl.nan := by
  cases d with
  | fin x =>
    cases e with
    | fin y => exact Or.inl (hR.nonpos _ (mul_nonpos_of_nonpos_of_nonneg hd he))
    | inf t =>
      simp only [Dbl.NonPos, Dbl.NonNeg] at hd he
      by_cases hx : x = 0
      · right; simp [Dbl.mul, hx]
      · left
        have : x < 0 := lt_of_le_of_ne hd hx
        simp [Dbl.mul, Dbl.NonPos, hx, he, this]
    | nan => exact he.elim
  | inf s =>
    cases e with
    | fin y =>
      simp only [Dbl.NonPos, Dbl.NonNeg] at hd he
      by_cases hy : y = 0
      · right; simp [Dbl.mul, hy]
      · left
        have : ¬ y < 0 := not_lt.2 he
        simp [Dbl.mul, Dbl.NonPos, hy, hd, this]
    | inf t =>
      simp only [Dbl.NonPos, Dbl.NonNeg] at hd he
      left; simp [Dbl.mul, Dbl.NonPos, hd, he]
    | nan => exact he.elim
  | nan => exact hd.elim

theorem isRounding_exact : IsRounding (Dbl.exact : K → Dbl K) :=
  ⟨rfl, fun _ => rfl, fun _ h => h⟩

theorem countsConvert_exact (w : Nat) : CountsConvert (Dbl.exact : K → Dbl K) w :=
  fun k hk _ => ⟨(k : K), by exact_mod_cast hk, rfl⟩

end Signs

end FF191008

namespace FF191008

/-! ## The binary64 rounding -/

theorem roundHalfEven_intCast (k : ℤ) : roundHalfEven (k : ℚ) = k := by
  simp [roundHalfEven]

theorem floor_le_roundHalfEven (t : ℚ) : ⌊t⌋ ≤ roundHalfEven t := by
  unfold roundHalfEven
  split_ifs <;> omega

theorem roundHalfEven_le_floor_add_one (t : ℚ) : roundHalfEven t ≤ ⌊t⌋ + 1 := by
  unfold roundHalfEven
  split_ifs <;> omega

theorem roundHalfEven_nonneg {t : ℚ} (ht : 0 ≤ t) : 0 ≤ roundHalfEven t :=
  le_trans (Int.floor_nonneg.2 ht) (floor_le_roundHalfEven t)

theorem roundHalfEven_eq_zero {t : ℚ} (h0 : 0 ≤ t) (h1 : t < 1 / 2) : roundHalfEven t = 0 := by
  have hfl : ⌊t⌋ = 0 := by
    rw [Int.floor_eq_iff]
    constructor
    · simpa using h0
    · norm_num; linarith
  unfold roundHalfEven
  rw [hfl, if_pos]
  simpa using h1

theorem binary64_magnitude_nonneg (x : ℚ) : 0 ≤ binary64_magnitude x := by
  unfold binary64_magnitude
  have h2 : (0 : ℚ) < 2 ^ (binary64_exponent x - 52) := zpow_pos (by norm_num) _
  have h1 : 0 ≤ roundHalfEven (|x| / 2 ^ (binary64_exponent x - 52)) :=
    roundHalfEven_nonneg (div_nonneg (abs_nonneg x) h2.le)
  exact mul_nonneg (by exact_mod_cast h1) h2.le

theorem binary64_exponent_neg (x : ℚ) : binary64_exponent (-x) = binary64_exponent x := by
  simp [binary64_exponent]

theorem binary64_magnitude_neg (x : ℚ) : binary64_magnitude (-x) = binary64_magnitude x := by
  simp [binary64_magnitude, binary64_exponent_neg]

theorem binary64_magnitude_zero : binary64_magnitude 0 = 0 := by
  simp [binary64_magnitude, roundHalfEven]

theorem two_pow_1024_pos : (0 : ℚ) < 2 ^ 1024 := pow_pos (by norm_num) _

theorem binary64_zero : binary64 0 = Dbl.fin 0 := by
  unfold binary64
  rw [binary64_magnitude_zero, if_neg (not_le.2 two_pow_1024_pos)]
  simp

theorem binary64_neg (x : ℚ) : binary64 (-x) = Dbl.neg (binary64 x) := by
  rcases lt_trichotomy x 0 with h | h | h
  · have h' : ¬ (-x < 0) := by linarith
    unfold binary64
    rw [binary64_magnitude_neg]
    split_ifs <;> simp [Dbl.neg, h, h']
  · subst h
    simp [binary64_zero, Dbl.neg]
  · have h' : -x < 0 := by linarith
    have h'' : ¬ x < 0 := by linarith
    unfold binary64
    rw [binary64_magnitude_neg]
    split_ifs <;> simp [Dbl.neg, h', h'']

theorem binary64_nonneg {x : ℚ} (hx : 0 ≤ x) : Dbl.NonNeg (binary64 x) := by
  have h' : ¬ x < 0 := not_lt.2 hx
  unfold binary64
  split_ifs
  · simp [Dbl.NonNeg, h']
  · simpa [Dbl.NonNeg] using binary64_magnitude_nonneg x

theorem binary64_exponent_zpow (z : ℤ) :
    binary64_exponent ((2 : ℚ) ^ z) = max z (-1022) := by
  have hpos : (0 : ℚ) < 2 ^ z := zpow_pos (by norm_num) z
  have hlog : Int.log 2 ((2 : ℚ) ^ z) = z := by
    exact_mod_cast Int.log_zpow (R := ℚ) (b := 2) (by norm_num) z
  rw [binary64_exponent, abs_of_pos hpos, hlog]

theorem binary64_magnitude_zpow (z : ℤ) (h1 : -1022 ≤ z) :
    binary64_magnitude ((2 : ℚ) ^ z) = 2 ^ z := by
  have hpos : (0 : ℚ) < 2 ^ z := zpow_pos (by norm_num) z
  have hq : (2 : ℚ) ^ z / 2 ^ (z - 52) = ((2 ^ 52 : ℤ) : ℚ) := by
    rw [← zpow_sub₀ (by norm_num : (2 : ℚ) ≠ 0)]
    norm_num
  rw [binary64_magnitude, binary64_exponent_zpow, max_eq_left h1, abs_of_pos hpos, hq,
    roundHalfEven_intCast, ← hq, div_mul_cancel₀]
  exact (zpow_pos (by norm_num) _).ne'

theorem two_zpow_lt_iff (z : ℤ) : (2 : ℚ) ^ 1024 ≤ 2 ^ z ↔ 1024 ≤ z := by
  have h : ((2 : ℚ) ^ (1024 : ℕ)) = (2 : ℚ) ^ ((1024 : ℕ) : ℤ) := (zpow_natCast _ _).symm
  rw [h, zpow_le_zpow_iff_right₀ (by norm_num : (1 : ℚ) < 2)]
  simp

/-- Powers of two in the normal range are representable. -/
theorem binary64_zpow (z : ℤ) (h1 : -1022 ≤ z) (h2 : z ≤ 1023) :
    binary64 ((2 : ℚ) ^ z) = Dbl.fin (2 ^ z) := by
  have hpos : (0 : ℚ) < 2 ^ z := zpow_pos (by norm_num) z
  unfold binary64
  rw [binary64_magnitude_zpow z h1, if_neg (by rw [two_zpow_lt_iff]; omega),
    if_neg (not_lt.2 hpos.le)]

/-- Powers of two from `2 ^ 1024` overflow. -/
theorem binary64_zpow_overflow (z : ℤ) (h : 1024 ≤ z) :
    binary64 ((2 : ℚ) ^ z) = Dbl.inf false := by
  have hpos : (0 : ℚ) < 2 ^ z := zpow_pos (by norm_num) z
  unfold binary64
  rw [binary64_magnitude_zpow z (by omega), if_pos (by rw [two_zpow_lt_iff]; exact h)]
  simp [not_lt.2 hpos.le]

/-- Powers of two below `2 ^ (-1075)` underflow to zero. -/
theorem binary64_zpow_underflow (z : ℤ) (h : z ≤ -1076) :
    binary64 ((2 : ℚ) ^ z) = Dbl.fin 0 := by
  have hpos : (0 : ℚ) < 2 ^ z := zpow_pos (by norm_num) z
  have hmag : binary64_magnitude ((2 : ℚ) ^ z) = 0 := by
    have hq : (2 : ℚ) ^ z / 2 ^ ((-1022 : ℤ) - 52) = 2 ^ (z + 1074) := by
      rw [← zpow_sub₀ (by norm_num : (2 : ℚ) ≠ 0)]
      congr 1
    have hsmall : (2 : ℚ) ^ (z + 1074) < 1 / 2 := by
      have : (2 : ℚ) ^ (z + 1074) ≤ 2 ^ (-2 : ℤ) :=
        zpow_le_zpow_right₀ (by norm_num) (by omega)
      exact lt_of_le_of_lt this (by norm_num)
    rw [binary64_magnitude, binary64_exponent_zpow, max_eq_right (by omega), abs_of_pos hpos, hq,
      roundHalfEven_eq_zero (zpow_pos (by norm_num) _).le hsmall]
    simp
  unfold binary64
  rw [hmag, if_neg (not_le.2 two_pow_1024_pos)]
  simp

/-- Values from `1` to below `2 ^ 1023` round to a positive finite double. -/
theorem binary64_pos_finite {x : ℚ} (h1 : 1 ≤ x) (h2 : x < 2 ^ 1023) :
    ∃ m : ℚ, 0 < m ∧ binary64 x = Dbl.fin m := by
  have hx : 0 < x := lt_of_lt_of_le one_pos h1
  have hb : (1 : ℕ) < 2 := by norm_num
  have hlog0 : 0 ≤ Int.log 2 x :=
    (Int.zpow_le_iff_le_log hb hx).1 (by simpa using h1)
  have hexp : binary64_exponent x = Int.log 2 x := by
    rw [binary64_exponent, abs_of_pos hx, max_eq_left (by omega)]
  have hlo : (2 : ℚ) ^ Int.log 2 x ≤ x := by
    simpa using Int.zpow_log_le_self (R := ℚ) hb hx
  have hu : (0 : ℚ) < 2 ^ (Int.log 2 x - 52) := zpow_pos (by norm_num) _
  have hule : (2 : ℚ) ^ (Int.log 2 x - 52) ≤ x :=
    le_trans (zpow_le_zpow_right₀ (by norm_num) (by omega)) hlo
  have ht1 : (1 : ℚ) ≤ x / 2 ^ (Int.log 2 x - 52) := by
    rw [le_div_iff₀ hu]; simpa using hule
  have hfl : 1 ≤ ⌊x / 2 ^ (Int.log 2 x - 52)⌋ := Int.le_floor.2 (by simpa using ht1)
  have hq1 : 1 ≤ roundHalfEven (x / 2 ^ (Int.log 2 x - 52)) :=
    le_trans hfl (floor_le_roundHalfEven _)
  have hq2 : (roundHalfEven (x / 2 ^ (Int.log 2 x - 52)) : ℚ) ≤
      x / 2 ^ (Int.log 2 x - 52) + 1 := by
    have h := roundHalfEven_le_floor_add_one (x / 2 ^ (Int.log 2 x - 52))
    have h' : (roundHalfEven (x / 2 ^ (Int.log 2 x - 52)) : ℚ) ≤
        (⌊x / 2 ^ (Int.log 2 x - 52)⌋ : ℚ) + 1 := by exact_mod_cast h
    linarith [Int.floor_le (x / 2 ^ (Int.log 2 x - 52))]
  have hmag : binary64_magnitude x =
      (roundHalfEven (x / 2 ^ (Int.log 2 x - 52)) : ℚ) * 2 ^ (Int.log 2 x - 52) := by
    rw [binary64_magnitude, hexp, abs_of_pos hx]
  have hmpos : 0 < binary64_magnitude x := by
    rw [hmag]
    exact mul_pos (by exact_mod_cast hq1) hu
  have hmlt : binary64_magnitude x < 2 ^ 1024 := by
    rw [hmag]
    have h3 : (roundHalfEven (x / 2 ^ (Int.log 2 x - 52)) : ℚ) * 2 ^ (Int.log 2 x - 52) ≤
        (x / 2 ^ (Int.log 2 x - 52) + 1) * 2 ^ (Int.log 2 x - 52) :=
      mul_le_mul_of_nonneg_right hq2 hu.le
    have h4 : (x / 2 ^ (Int.log 2 x - 52) + 1) * 2 ^ (Int.log 2 x - 52) =
        x + 2 ^ (Int.log 2 x - 52) := by
      field_simp
    have h5 : (2 : ℚ) ^ 1024 = 2 * 2 ^ 1023 := by rw [pow_succ]; ring
    rw [h5]
    linarith
  refine ⟨binary64_magnitude x, hmpos, ?_⟩
  unfold binary64
  rw [if_neg (not_le.2 hmlt), if_neg (not_lt.2 hx.le)]

theorem isRounding_binary64 : IsRounding binary64 :=
  ⟨binary64_zero, binary64_neg, fun _ h => binary64_nonneg h⟩

/-- Counts of at most 64 bits convert to positive finite doubles. -/
theorem countsConvert_binary64 (w : Nat) (hw : w ≤ 64) : CountsConvert binary64 w := by
  intro k hk hlt
  refine binary64_pos_finite (by exact_mod_cast hk) ?_
  have h1 : k < 2 ^ 64 := lt_of_lt_of_le hlt (Nat.pow_le_pow_right (by norm_num) hw)
  have h2 : (k : ℚ) < 2 ^ 64 := by exact_mod_cast h1
  have h3 : (2 : ℚ) ^ 64 ≤ 2 ^ 1023 := pow_le_pow_right₀ (by norm_num) (by norm_num)
  exact lt_of_lt_of_le h2 h3

theorem binary64_one : binary64 1 = Dbl.fin 1 := by
  simpa using binary64_zpow 0 (by norm_num) (by norm_num)

theorem binary64_neg_one : binary64 (-1) = Dbl.fin (-1) := by
  rw [binary64_neg, binary64_one]
  rfl

end FF191008

namespace FF191008

/-! ## The loop of `main` -/

section Lemmas

variable {G K : Type} [LinearOrderedField K]

theorem f_dbl_eq (R : K → Dbl K) (x : Dbl K) :
    f_dbl R x = Dbl.add R (Dbl.add R x (Dbl.mul R x x)) (Dbl.mul R (Dbl.mul R x x) x) := rfl

theorem f_dbl_exact (x : K) : f_dbl Dbl.exact (Dbl.fin x) = Dbl.fin (f x) := rfl

theorem f_eq_poly (x : K) : f x = x + x ^ 2 + x ^ 3 := by
  unfold f; ring

/-- The running sum in exact arithmetic over a list of drawn values, from a
start value. -/
theorem foldl_fin (xs : List K) (s : K) :
    (xs.map Dbl.fin).foldl (fun acc x => Dbl.add Dbl.exact acc (f_dbl Dbl.exact x)) (Dbl.fin s)
      = Dbl.fin (s + (xs.map f).sum) := by
  induction xs generalizing s with
  | nil => simp
  | cons x xs ih =>
    simp only [List.map_cons, List.foldl_cons, f_dbl_exact, Dbl.add_exact, ih, List.sum_cons]
    rw [add_assoc]

theorem sumOver_exact (xs : List K) :
    sumOver Dbl.exact (xs.map Dbl.fin) = Dbl.fin ((xs.map f).sum) := by
  rw [sumOver, foldl_fin, zero_add]

omit [LinearOrderedField K] in
theorem samples_length (rand : G → Dbl K → Dbl K → Dbl K × G) (a b : Dbl K) :
    ∀ (n : Nat) (g : G), (samples rand a b n g).length = n
  | 0, _ => rfl
  | n + 1, g => by simp [samples, samples_length rand a b n]

/-- From a state whose counter is `m` short of `n + 1`, the loop makes `m`
more draws and is left at the next test. -/
theorem loop_run (R : K → Dbl K) (w : Nat) (rand : G → Dbl K → Dbl K → Dbl K × G)
    (a b : Dbl K) (n : Nat) (hw : n + 1 < 2 ^ w) :
    ∀ (m : Nat) (s : LoopState G K), s.i + m = n + 1 →
      ∃ g', loop R w rand a b n (m + 1) s =
        some { i := n + 1,
               sum := (samples rand a b m s.gen).foldl
                 (fun acc x => Dbl.add R acc (f_dbl R x)) s.sum,
               gen := g', drawn := s.drawn ++ samples rand a b m s.gen }
  | 0, s, h => by
    refine ⟨s.gen, ?_⟩
    have hgt : ¬ s.i ≤ n := by omega
    have hi : s.i = n + 1 := by omega
    cases s
    simp_all [loop, loop_step, samples]
  | m + 1, s, h => by
    have hle : s.i ≤ n := by omega
    have hmod : (s.i + 1) % 2 ^ w = s.i + 1 := Nat.mod_eq_of_lt (by omega)
    obtain ⟨g', hg'⟩ := loop_run R w rand a b n hw m
      { i := (s.i + 1) % 2 ^ w, sum := Dbl.add R s.sum (f_dbl R (rand s.gen a b).1),
        gen := (rand s.gen a b).2, drawn := s.drawn ++ [(rand s.gen a b).1] }
      (by simp only [hmod]; omega)
    refine ⟨g', ?_⟩
    rw [loop]
    simp only [loop_step, hle, if_true]
    rw [hg']
    simp [samples]

/-- More fuel does not change the state in which the loop is left. -/
theorem loop_fuel_mono (R : K → Dbl K) (w : Nat) (rand : G → Dbl K → Dbl K → Dbl K × G)
    (a b : Dbl K) (n : Nat) : ∀ (fuel k : Nat) (s s' : LoopState G K),
      loop R w rand a b n fuel s = some s' → loop R w rand a b n (fuel + k) s = some s'
  | 0, _, _, _, h => by simp [loop] at h
  | fuel + 1, k, s, s', h => by
    rw [Nat.add_right_comm, loop]
    rw [loop] at h
    cases hstep : loop_step R w rand a b n s with
    | none => simpa [hstep] using h
    | some t =>
      simp only [hstep] at h ⊢
      exact loop_fuel_mono R w rand a b n fuel k t s' h

/-- With the largest `w`-bit count the loop condition holds at every test. -/
theorem loop_max_never_left (R : K → Dbl K) (w : Nat)
    (rand : G → Dbl K → Dbl K → Dbl K × G) (a b : Dbl K) :
    ∀ (fuel : Nat) (s : LoopState G K), s.i < 2 ^ w →
      loop R w rand a b (2 ^ w - 1) fuel s = none
  | 0, _, _ => rfl
  | fuel + 1, s, hs => by
    have hle : s.i ≤ 2 ^ w - 1 := by omega
    rw [loop]
    simp only [loop_step, hle, if_true]
    exact loop_max_never_left R w rand a b fuel _ (Nat.mod_lt _ (by positivity))

/-- With `n + 1` tests of the loop condition `main` produces its report. -/
theorem main_total (R : K → Dbl K) (w : Nat) (rand : G → Dbl K → Dbl K → Dbl K × G) (g : G)
    (a b : Dbl K) (n : Nat) (hw : n + 1 < 2 ^ w) :
    main R w rand g a b n (n + 1) = some (closedReport R rand g a b n) := by
  have h1 : 1 % 2 ^ w = 1 := Nat.mod_eq_of_lt (by omega)
  obtain ⟨g', hg'⟩ := loop_run R w rand a b n hw n
    { i := 1 % 2 ^ w, sum := Dbl.fin 0, gen := g, drawn := [] } (by simp only [h1]; omega)
  simp [main, hg', closedReport, sumOver]

/-- Whatever the number of tests allowed, `main` produces no other report. -/
theorem main_report_unique (R : K → Dbl K) (w : Nat) (rand : G → Dbl K → Dbl K → Dbl K × G)
    (g : G) (a b : Dbl K) (n : Nat) (hrep : n < 2 ^ w) (fuel : Nat) (r : Report K)
    (h : main R w rand g a b n fuel = some r) : r = closedReport R rand g a b n := by
  by_cases hw : n + 1 < 2 ^ w
  · have ht := main_total R w rand g a b n hw
    unfold main at h ht
    cases hl : loop R w rand a b n fuel
        { i := 1 % 2 ^ w, sum := Dbl.fin 0, gen := g, drawn := [] } with
    | none => simp [hl] at h
    | some s =>
      have h1 := loop_fuel_mono R w rand a b n fuel (n + 1) _ s hl
      cases hl2 : loop R w rand a b n (n + 1)
          { i := 1 % 2 ^ w, sum := Dbl.fin 0, gen := g, drawn := [] } with
      | none => simp [hl2] at ht
      | some s2 =>
        have h2 := loop_fuel_mono R w rand a b n (n + 1) fuel _ s2 hl2
        rw [Nat.add_comm] at h2
        rw [h1] at h2
        simp only [hl] at h
        simp only [hl2] at ht
        cases h2
        exact (Option.some.inj h).symm.trans (Option.some.inj ht)
  · have hn : n = 2 ^ w - 1 := by omega
    subst hn
    have := loop_max_never_left R w rand a b fuel
      { i := 1 % 2 ^ w, sum := Dbl.fin 0, gen := g, drawn := [] }
      (Nat.mod_lt _ (by positivity))
    simp [main, this] at h

/-- The printed value in exact arithmetic on finite bounds and samples. -/
theorem closedReport_fin (rand : G → Dbl K → Dbl K → Dbl K × G) (g : G) (a b : K)
    (xs : List K) (hpos : 0 < xs.length)
    (hdraw : samples rand (Dbl.fin a) (Dbl.fin b) xs.length g = xs.map Dbl.fin) :
    closedReport Dbl.exact rand g (Dbl.fin a) (Dbl.fin b) xs.length =
      { printed := Dbl.fin (estimate a b xs), sum := Dbl.fin ((xs.map f).sum),
        drawn := xs.map Dbl.fin } := by
  have hne : (xs.length : K) ≠ 0 := by
    exact_mod_cast (Nat.pos_iff_ne_zero.mp hpos)
  simp only [closedReport, hdraw, sumOver_exact, Dbl.sub_exact, Dbl.ofNat, Dbl.exact,
    Dbl.div_exact _ _ hne, Dbl.mul_exact, estimate]

/-- The report in exact arithmetic on finite bounds and `n > 0` finite
samples: it is produced with `n + 1` tests of the loop condition when `n + 1`
is representable, and no other report is ever produced. -/
theorem main_fin_spec (w : Nat) (rand : G → Dbl K → Dbl K → Dbl K × G) (g : G) (a b : K)
    (n : Nat) (xs : List K) (hn : 0 < n) (hrep : n < 2 ^ w) (hlen : xs.length = n)
    (hdraw : samples rand (Dbl.fin a) (Dbl.fin b) n g = xs.map Dbl.fin) :
    (n + 1 < 2 ^ w → main Dbl.exact w rand g (Dbl.fin a) (Dbl.fin b) n (n + 1) =
        some { printed := Dbl.fin (estimate a b xs), sum := Dbl.fin ((xs.map f).sum),
               drawn := xs.map Dbl.fin }) ∧
    (∀ fuel r, main Dbl.exact w rand g (Dbl.fin a) (Dbl.fin b) n fuel = some r →
        r = { printed := Dbl.fin (estimate a b xs), sum := Dbl.fin ((xs.map f).sum),
              drawn := xs.map Dbl.fin }) := by
  subst hlen
  have hc := closedReport_fin rand g a b xs hn hdraw
  refine ⟨fun hw => ?_, fun fuel r h => ?_⟩
  · rw [main_total Dbl.exact w rand g _ _ _ hw, hc]
  · rw [main_report_unique Dbl.exact w rand g _ _ _ hrep fuel r h, hc]

/-- The printed value when the bounds are equal: zero if the final sum is
finite, not-a-number otherwise. -/
theorem closedReport_zero_width (R : K → Dbl K) (hzero : R 0 = Dbl.fin 0) (w : Nat)
    (hconv : CountsConvert R w) (rand : G → Dbl K → Dbl K → Dbl K × G) (g : G) (a : K)
    (n : Nat) (hn : 0 < n) (hrep : n < 2 ^ w) :
    (Dbl.IsFinite (closedReport R rand g (Dbl.fin a) (Dbl.fin a) n).sum →
      (closedReport R rand g (Dbl.fin a) (Dbl.fin a) n).printed = Dbl.fin 0) ∧
    (¬ Dbl.IsFinite (closedReport R rand g (Dbl.fin a) (Dbl.fin a) n).sum →
      (closedReport R rand g (Dbl.fin a) (Dbl.fin a) n).printed = Dbl.nan) := by
  obtain ⟨m, hm, hRm⟩ := hconv n hn hrep
  have hd : Dbl.div R (Dbl.sub R (Dbl.fin a) (Dbl.fin a)) (Dbl.ofNat R n) = Dbl.fin 0 := by
    rw [Dbl.sub_fin, sub_self, hzero, Dbl.ofNat, hRm]
    simp [Dbl.div, hm.ne', hzero]
  simp only [closedReport, hd]
  exact Dbl.zero_mul_cases R hzero _

theorem map_f_eq_poly (xs : List K) :
    xs.map f = xs.map (fun x => x + x ^ 2 + x ^ 3) :=
  List.map_congr_left (fun x _ => f_eq_poly x)

/-- The integrand is strictly increasing. -/
theorem f_lt_f {x y : K} (h : x < y) : f x < f y := by
  have hq : 0 < 1 + x + y + x ^ 2 + x * y + y ^ 2 := by
    nlinarith [sq_nonneg (x + y + 1), sq_nonneg x, sq_nonneg y]
  have hd : f y - f x = (y - x) * (1 + x + y + x ^ 2 + x * y + y ^ 2) := by
    unfold f; ring
  have := mul_pos (sub_pos.2 h) hq
  linarith

theorem f_le_f {x y : K} (h : x ≤ y) : f x ≤ f y := by
  rcases h.lt_or_eq with h | h
  · exact (f_lt_f h).le
  · rw [h]

theorem f_pos {x : K} (h : 0 < x) : 0 < f x := by
  have := f_lt_f h
  simpa [f] using this

theorem f_neg {x : K} (h : x < 0) : f x < 0 := by
  have := f_lt_f h
  simpa [f] using this

/-- The sum of the integrand over samples between `lo` and `hi`. -/
theorem sum_f_bounds (xs : List K) (lo hi : K) (h : ∀ x ∈ xs, lo ≤ x ∧ x ≤ hi) :
    (xs.length : K) * f lo ≤ (xs.map f).sum ∧ (xs.map f).sum ≤ (xs.length : K) * f hi := by
  induction xs with
  | nil => simp
  | cons x xs ih =>
    have hx := h x (List.mem_cons_self x xs)
    have ih' := ih (fun y hy => h y (List.mem_cons_of_mem x hy))
    have h1 := f_le_f hx.1
    have h2 := f_le_f hx.2
    simp only [List.map_cons, List.sum_cons, List.length_cons, Nat.cast_add, Nat.cast_one]
    constructor <;> nlinarith [ih'.1, ih'.2]

/-- The estimate as the mean of the integrand scaled by the width. -/
theorem estimate_eq (a b : K) (xs : List K) :
    estimate a b xs = (b - a) * ((xs.map f).sum / (xs.length : K)) := by
  unfold estimate; ring

end Lemmas

end FF191008

namespace FF191008

/-! ## The estimator of `ff_191008.cpp` -/

section Estimator

variable {G K : Type} [LinearOrderedField K]

/-- C1: for finite bounds `a`, `b`, a sample count `n > 0` and the samples
`x1..xn` returned by the sampler, `main` prints
`((b - a) / n) * (f x1 + ... + f xn)` with `f x = x + x^2 + x^3` (so
`f 2 = 14`); its sum is accumulated from `0` over exactly the `n` drawn
samples.  The report is produced after `n + 1` tests of the loop condition
when `n + 1` is a value of the counter, and no other report can be produced.
Under any rounding `R` of the arithmetic, what is printed is the same formula
evaluated with the rounded operations, in the order of the source. -/
theorem estimate_formula (w : Nat) (rand : G → Dbl K → Dbl K → Dbl K × G) (g : G)
    (a b : K) (n : Nat) (xs : List K) (hn : 0 < n) (hrep : n < 2 ^ w)
    (hlen : xs.length = n)
    (hdraw : samples rand (Dbl.fin a) (Dbl.fin b) n g = xs.map Dbl.fin) :
    (n + 1 < 2 ^ w → main Dbl.exact w rand g (Dbl.fin a) (Dbl.fin b) n (n + 1) =
      some { printed :=
               Dbl.fin (((b - a) / (n : K)) * (xs.map (fun x => x + x ^ 2 + x ^ 3)).sum),
             sum := Dbl.fin (0 + (xs.map (fun x => x + x ^ 2 + x ^ 3)).sum),
             drawn := xs.map Dbl.fin }) ∧
    (∀ fuel r, main Dbl.exact w rand g (Dbl.fin a) (Dbl.fin b) n fuel = some r →
      r.printed = Dbl.fin (((b - a) / (n : K)) * (xs.map (fun x => x + x ^ 2 + x ^ 3)).sum) ∧
      r.sum = Dbl.fin (0 + (xs.map (fun x => x + x ^ 2 + x ^ 3)).sum) ∧
      r.drawn = xs.map Dbl.fin ∧ r.drawn.length = n) ∧
    (∀ x : K, f_dbl Dbl.exact (Dbl.fin x) = Dbl.fin (x + x ^ 2 + x ^ 3)) ∧
    f_dbl Dbl.exact (Dbl.fin (2 : K)) = Dbl.fin 14 ∧
    (∀ R : K → Dbl K,
      (n + 1 < 2 ^ w → ∃ r, main R w rand g (Dbl.fin a) (Dbl.fin b) n (n + 1) = some r) ∧
      (∀ fuel r, main R w rand g (Dbl.fin a) (Dbl.fin b) n fuel = some r →
        r.drawn = xs.map Dbl.fin ∧
        r.sum = (xs.map Dbl.fin).foldl (fun acc x => Dbl.add R acc (f_dbl R x)) (Dbl.fin 0) ∧
        r.printed = Dbl.mul R
          (Dbl.div R (Dbl.sub R (Dbl.fin b) (Dbl.fin a)) (Dbl.ofNat R n)) r.sum)) := by
  have hspec := main_fin_spec w rand g a b n xs hn hrep hlen hdraw
  have hest : estimate a b xs =
      ((b - a) / (n : K)) * (xs.map (fun x => x + x ^ 2 + x ^ 3)).sum := by
    rw [estimate, hlen, map_f_eq_poly]
  rw [hest, map_f_eq_poly] at hspec
  refine ⟨fun hw => ?_, fun fuel r h => ?_, fun x => ?_, ?_, fun R => ⟨fun hw => ?_,
    fun fuel r h => ?_⟩⟩
  · rw [hspec.1 hw, zero_add]
  · rw [hspec.2 fuel r h]
    simp [hlen]
  · rw [f_dbl_exact, f_eq_poly]
  · rw [f_dbl_exact, f_eq_poly]; norm_num
  · exact ⟨_, main_total R w rand g _ _ n hw⟩
  · rw [main_report_unique R w rand g _ _ n hrep fuel r h]
    simp only [closedReport, sumOver, hdraw]
    exact ⟨trivial, trivial, trivial⟩

/-- C4, as amended: for every finite `a`, every `n > 0` and every `n`
samples, if `b = a` then the printed estimate is `0` when the accumulated sum
is finite and not-a-number when the sum has overflowed (is infinite or
not-a-number), under every rounding that represents zero and converts counts
to positive finite doubles; in exact arithmetic with finite samples the
printed estimate is always `0`. -/
theorem zero_width_estimate (R : K → Dbl K) (hzero : R 0 = Dbl.fin 0) (w : Nat)
    (hconv : CountsConvert R w) (rand : G → Dbl K → Dbl K → Dbl K × G) (g : G)
    (a b : K) (n : Nat) (hab : b = a) (hn : 0 < n) (hrep : n < 2 ^ w) :
    (n + 1 < 2 ^ w → ∃ r, main R w rand g (Dbl.fin a) (Dbl.fin b) n (n + 1) = some r ∧
      r.drawn.length = n) ∧
    (∀ fuel r, main R w rand g (Dbl.fin a) (Dbl.fin b) n fuel = some r →
      (Dbl.IsFinite r.sum → r.printed = Dbl.fin 0) ∧
      (¬ Dbl.IsFinite r.sum → r.printed = Dbl.nan)) ∧
    (∀ xs : List K, samples rand (Dbl.fin a) (Dbl.fin b) n g = xs.map Dbl.fin →
      ∀ fuel r, main Dbl.exact w rand g (Dbl.fin a) (Dbl.fin b) n fuel = some r →
        r.printed = Dbl.fin 0) := by
  subst hab
  refine ⟨fun hw => ⟨_, main_total R w rand g _ _ n hw, samples_length rand _ _ n g⟩,
    fun fuel r h => ?_, fun xs hdraw fuel r h => ?_⟩
  · rw [main_report_unique R w rand g _ _ n hrep fuel r h]
    exact closedReport_zero_width R hzero w hconv rand g b n hn hrep
  · have hr := main_report_unique Dbl.exact w rand g _ _ n hrep fuel r h
    have hz := closedReport_zero_width Dbl.exact rfl w (countsConvert_exact w) rand g b n hn hrep
    rw [hr]
    apply hz.1
    simp only [closedReport, hdraw, sumOver_exact]
    trivial

/-- C5: for finite `a`, `b`, `n > 0` and the same `n` samples, the run on
`(b, a)` prints the negation of what the run on `(a, b)` prints, and both
runs end with the same sum: with exact values `v` and `-v` in exact
arithmetic, and as IEEE negation of the printed double under every rounding
that commutes with negation. -/
theorem swap_bounds_negates (w : Nat) (rand1 rand2 : G → Dbl K → Dbl K → Dbl K × G)
    (g1 g2 : G) (a b : K) (n : Nat) (xs : List K) (hn : 0 < n) (hrep : n < 2 ^ w)
    (hlen : xs.length = n)
    (hdraw1 : samples rand1 (Dbl.fin a) (Dbl.fin b) n g1 = xs.map Dbl.fin)
    (hdraw2 : samples rand2 (Dbl.fin b) (Dbl.fin a) n g2 = xs.map Dbl.fin) :
    (n + 1 < 2 ^ w → ∃ v s,
      main Dbl.exact w rand1 g1 (Dbl.fin a) (Dbl.fin b) n (n + 1) =
        some { printed := Dbl.fin v, sum := s, drawn := xs.map Dbl.fin } ∧
      main Dbl.exact w rand2 g2 (Dbl.fin b) (Dbl.fin a) n (n + 1) =
        some { printed := Dbl.fin (-v), sum := s, drawn := xs.map Dbl.fin }) ∧
    (∀ fuel1 fuel2 r1 r2,
      main Dbl.exact w rand1 g1 (Dbl.fin a) (Dbl.fin b) n fuel1 = some r1 →
      main Dbl.exact w rand2 g2 (Dbl.fin b) (Dbl.fin a) n fuel2 = some r2 →
      ∃ v, r1.printed = Dbl.fin v ∧ r2.printed = Dbl.fin (-v) ∧ r1.sum = r2.sum) ∧
    (∀ R : K → Dbl K, (∀ x, R (-x) = Dbl.neg (R x)) → ∀ fuel1 fuel2 r1 r2,
      main R w rand1 g1 (Dbl.fin a) (Dbl.fin b) n fuel1 = some r1 →
      main R w rand2 g2 (Dbl.fin b) (Dbl.fin a) n fuel2 = some r2 →
      r2.printed = Dbl.neg r1.printed ∧ r2.sum = r1.sum) := by
  have h1 := main_fin_spec w rand1 g1 a b n xs hn hrep hlen hdraw1
  have h2 := main_fin_spec w rand2 g2 b a n xs hn hrep hlen hdraw2
  have hneg : estimate b a xs = -estimate a b xs := by
    unfold estimate; ring
  rw [hneg] at h2
  refine ⟨fun hw => ⟨estimate a b xs, _, h1.1 hw, h2.1 hw⟩,
    fun fuel1 fuel2 r1 r2 e1 e2 => ?_, fun R hR fuel1 fuel2 r1 r2 e1 e2 => ?_⟩
  · rw [h1.2 fuel1 r1 e1, h2.2 fuel2 r2 e2]
    exact ⟨estimate a b xs, rfl, rfl, rfl⟩
  · rw [main_report_unique R w rand1 g1 _ _ n hrep fuel1 r1 e1,
      main_report_unique R w rand2 g2 _ _ n hrep fuel2 r2 e2]
    have hsub : Dbl.sub R (Dbl.fin a) (Dbl.fin b) = Dbl.neg (Dbl.sub R (Dbl.fin b) (Dbl.fin a)) := by
      rw [Dbl.sub_fin, Dbl.sub_fin, ← hR, neg_sub]
    simp only [closedReport, hdraw1, hdraw2, hsub, Dbl.div_neg_left R hR, Dbl.mul_neg_left R hR]
    exact ⟨trivial, trivial⟩

/-- C6, as amended: for finite `a`, `b`, `n > 0` and `n` samples in the closed
interval between `a` and `b`.  In exact arithmetic the printed estimate `v` is
`0` when `b = a`; when `a` and `b` are both positive it is positive for
`b > a` and negative for `b < a`; when `a` and `b` are both negative it is
negative for `b > a` and positive for `b < a`.  Under every IEEE rounding the
printed double is `0` or not-a-number when `b = a`, and when `a` and `b` are
both positive it is never negative for `b > a` (a value `>= 0`, `+∞` or
not-a-number) and never positive for `b < a` (a value `<= 0`, `-∞` or
not-a-number). -/
theorem estimate_sign (w : Nat) (rand : G → Dbl K → Dbl K → Dbl K × G) (g : G)
    (a b : K) (n : Nat) (xs : List K) (hn : 0 < n) (hrep : n < 2 ^ w)
    (hlen : xs.length = n)
    (hdraw : samples rand (Dbl.fin a) (Dbl.fin b) n g = xs.map Dbl.fin)
    (hmem : ∀ x ∈ xs, min a b ≤ x ∧ x ≤ max a b) :
    (∃ v : K,
      (n + 1 < 2 ^ w → ∃ r, main Dbl.exact w rand g (Dbl.fin a) (Dbl.fin b) n (n + 1) = some r ∧
        r.printed = Dbl.fin v) ∧
      (∀ fuel r, main Dbl.exact w rand g (Dbl.fin a) (Dbl.fin b) n fuel = some r →
        r.printed = Dbl.fin v) ∧
      (b = a → v = 0) ∧
      (0 < a → 0 < b → (a < b → 0 < v) ∧ (b < a → v < 0)) ∧
      (a < 0 → b < 0 → (a < b → v < 0) ∧ (b < a → 0 < v))) ∧
    (∀ R : K → Dbl K, IsRounding R → CountsConvert R w →
      (n + 1 < 2 ^ w → ∃ r, main R w rand g (Dbl.fin a) (Dbl.fin b) n (n + 1) = some r) ∧
      (∀ fuel r, main R w rand g (Dbl.fin a) (Dbl.fin b) n fuel = some r →
        (b = a → r.printed = Dbl.fin 0 ∨ r.printed = Dbl.nan) ∧
        (0 < a → 0 < b →
          (a < b → Dbl.NonNeg r.printed ∨ r.printed = Dbl.nan) ∧
          (b < a → Dbl.NonPos r.printed ∨ r.printed = Dbl.nan)))) := by
  have hspec := main_fin_spec w rand g a b n xs hn hrep hlen hdraw
  have hb := sum_f_bounds xs (min a b) (max a b) hmem
  have hnK : (0 : K) < (xs.length : K) := by
    rw [hlen]; exact_mod_cast hn
  refine ⟨⟨estimate a b xs, fun hw => ⟨_, hspec.1 hw, rfl⟩, fun fuel r h => ?_, ?_, ?_, ?_⟩,
    fun R hR hconv => ⟨fun hw => ⟨_, main_total R w rand g _ _ n hw⟩, fun fuel r h => ?_⟩⟩
  · rw [hspec.2 fuel r h]
  · intro hab
    simp [estimate, hab]
  · intro ha hb0
    have hS : 0 < (xs.map f).sum :=
      lt_of_lt_of_le (mul_pos hnK (f_pos (lt_min ha hb0))) hb.1
    have hq : 0 < (xs.map f).sum / (xs.length : K) := div_pos hS hnK
    rw [estimate_eq]
    exact ⟨fun h => mul_pos (sub_pos.2 h) hq, fun h => mul_neg_of_neg_of_pos (sub_neg.2 h) hq⟩
  · intro ha hb0
    have hS : (xs.map f).sum < 0 :=
      lt_of_le_of_lt hb.2 (mul_neg_of_pos_of_neg hnK (f_neg (max_lt ha hb0)))
    have hq : (xs.map f).sum / (xs.length : K) < 0 := div_neg_of_neg_of_pos hS hnK
    rw [estimate_eq]
    exact ⟨fun h => mul_neg_of_pos_of_neg (sub_pos.2 h) hq,
      fun h => mul_pos_of_neg_of_neg (sub_neg.2 h) hq⟩
  · have hr := main_report_unique R w rand g _ _ n hrep fuel r h
    obtain ⟨m, hm, hRm⟩ := hconv n hn hrep
    refine ⟨fun hab => ?_, fun ha hb0 => ?_⟩
    · subst hab
      have hz := closedReport_zero_width R hR.zero w hconv rand g b n hn hrep
      rw [hr]
      by_cases hfin : Dbl.IsFinite (closedReport R rand g (Dbl.fin b) (Dbl.fin b) n).sum
      · exact Or.inl (hz.1 hfin)
      · exact Or.inr (hz.2 hfin)
    · have hpos : ∀ x ∈ xs, 0 < x := fun x hx => lt_of_lt_of_le (lt_min ha hb0) (hmem x hx).1
      have hS : Dbl.NonNeg (sumOver R (xs.map Dbl.fin)) := sumOver_nonneg hR xs hpos
      have hp : r.printed = Dbl.mul R (Dbl.div R (R (b - a)) (Dbl.fin m))
          (sumOver R (xs.map Dbl.fin)) := by
        rw [hr]
        simp only [closedReport, hdraw, Dbl.sub_fin, Dbl.ofNat, hRm]
      rw [hp]
      exact ⟨fun hlt => nonneg_mul_nonneg hR
          (nonneg_div_pos hR (hR.nonneg _ (sub_nonneg.2 hlt.le)) hm) hS,
        fun hlt => nonpos_mul_nonneg hR
          (nonpos_div_pos hR (hR.nonpos _ (sub_nonpos.2 hlt.le)) hm) hS⟩

/-- C10: for finite `a <= b`, `n > 0` and `n` samples in `[a, b]`, in exact
arithmetic the printed estimate `v` satisfies
`(b - a) * f a <= v <= (b - a) * f b`, and `f` is strictly increasing. -/
theorem estimate_between_endpoint_values (w : Nat) (rand : G → Dbl K → Dbl K → Dbl K × G)
    (g : G) (a b : K) (n : Nat) (xs : List K) (hab : a ≤ b) (hn : 0 < n)
    (hrep : n < 2 ^ w) (hlen : xs.length = n)
    (hdraw : samples rand (Dbl.fin a) (Dbl.fin b) n g = xs.map Dbl.fin)
    (hmem : ∀ x ∈ xs, a ≤ x ∧ x ≤ b) :
    (∃ v : K,
      (n + 1 < 2 ^ w → ∃ r, main Dbl.exact w rand g (Dbl.fin a) (Dbl.fin b) n (n + 1) = some r ∧
        r.printed = Dbl.fin v) ∧
      (∀ fuel r, main Dbl.exact w rand g (Dbl.fin a) (Dbl.fin b) n fuel = some r →
        r.printed = Dbl.fin v) ∧
      (b - a) * f a ≤ v ∧ v ≤ (b - a) * f b) ∧
    StrictMono (f : K → K) := by
  have hspec := main_fin_spec w rand g a b n xs hn hrep hlen hdraw
  have hb := sum_f_bounds xs a b hmem
  have hnK : (0 : K) < (xs.length : K) := by
    rw [hlen]; exact_mod_cast hn
  have hw0 : 0 ≤ b - a := sub_nonneg.2 hab
  refine ⟨⟨estimate a b xs, fun hw => ⟨_, hspec.1 hw, rfl⟩, fun fuel r h => ?_, ?_, ?_⟩,
    fun x y h => f_lt_f h⟩
  · rw [hspec.2 fuel r h]
  · rw [estimate_eq]
    apply mul_le_mul_of_nonneg_left _ hw0
    rw [le_div_iff₀ hnK]
    linarith [hb.1]
  · rw [estimate_eq]
    apply mul_le_mul_of_nonneg_left _ hw0
    rw [div_le_iff₀ hnK]
    linarith [hb.2]

/-- C2, as amended: `main` has no failing path.  With `n = 0` it draws no
sample, leaves the sum at `0`, still evaluates `((b - a) / n) * sum` and
prints not-a-number, for all bounds and every rounding that represents zero;
with `n > 0` (and `n + 1` a value of the counter) it returns a report after
`n` draws. -/
theorem zero_count_prints_nan (R : K → Dbl K) (hzero : R 0 = Dbl.fin 0) (w : Nat)
    (rand : G → Dbl K → Dbl K → Dbl K × G) (g : G) (a b : Dbl K) (hw : 1 < 2 ^ w) :
    main R w rand g a b 0 1 = some { printed := Dbl.nan, sum := Dbl.fin 0, drawn := [] } ∧
    (∀ fuel r, main R w rand g a b 0 fuel = some r →
      r = { printed := Dbl.nan, sum := Dbl.fin 0, drawn := [] }) ∧
    (∀ n, 0 < n → n + 1 < 2 ^ w →
      ∃ r, main R w rand g a b n (n + 1) = some r ∧ r.drawn.length = n) := by
  have hc : closedReport R rand g a b 0 =
      { printed := Dbl.nan, sum := Dbl.fin 0, drawn := [] } := by
    simp [closedReport, sumOver, samples, Dbl.ofNat, hzero, Dbl.div_zero_mul_zero]
  refine ⟨?_, fun fuel r h => ?_, fun n _ hn => ?_⟩
  · rw [main_total R w rand g a b 0 (by omega), hc]
  · rw [main_report_unique R w rand g a b 0 (by omega) fuel r h, hc]
  · exact ⟨_, main_total R w rand g a b n hn, samples_length rand a b n g⟩

/-- C3 at the largest count: with `count_nums = 2 ^ w - 1` the condition
`i <= count_nums` holds for every value of the `w`-bit counter, so the loop is
never left and `main` never reaches its `print`, whatever the number of
tests allowed and whatever the rounding. -/
theorem max_count_never_returns (R : K → Dbl K) (w : Nat)
    (rand : G → Dbl K → Dbl K → Dbl K × G) (g : G) (a b : Dbl K) (fuel : Nat) :
    main R w rand g a b (2 ^ w - 1) fuel = none := by
  unfold main
  rw [loop_max_never_left R w rand a b fuel _ (Nat.mod_lt _ (by positivity))]

/-- Below the largest count the loop makes exactly `n` draws: it is still
running after `n` tests of its condition and is left at test `n + 1`. -/
theorem loop_exact_iterations (R : K → Dbl K) (w : Nat)
    (rand : G → Dbl K → Dbl K → Dbl K × G) (g : G) (a b : Dbl K) (n : Nat)
    (hw : n + 1 < 2 ^ w) :
    main R w rand g a b n n = none ∧
    ∃ r, main R w rand g a b n (n + 1) = some r ∧ r.drawn.length = n := by
  refine ⟨?_, _, main_total R w rand g a b n hw, samples_length rand a b n g⟩
  cases h : main R w rand g a b n n with
  | none => rfl
  | some r =>
    exfalso
    have hr := main_report_unique R w rand g a b n (by omega) n r h
    unfold main at h
    cases hl : loop R w rand a b n n
        { i := 1 % 2 ^ w, sum := Dbl.fin 0, gen := g, drawn := [] } with
    | none => simp [hl] at h
    | some s =>
      have key : ∀ (fuel : Nat) (t t' : LoopState G K),
          loop R w rand a b n fuel t = some t' → t'.drawn.length < t.drawn.length + fuel := by
        intro fuel
        induction fuel with
        | zero => intro t t' ht; simp [loop] at ht
        | succ k ih =>
          intro t t' ht
          rw [loop] at ht
          by_cases hle : t.i ≤ n
          · simp only [loop_step, hle, if_true] at ht
            have := ih _ _ ht
            simp at this
            omega
          · simp only [loop_step, hle, if_false] at ht
            cases ht
            omega
      have hlt := key n _ s hl
      simp only [hl] at h
      have hd : r.drawn = s.drawn := by cases h; rfl
      rw [hr] at hd
      have hlen : (closedReport R rand g a b n).drawn.length = n := samples_length rand a b n g
      rw [hd] at hlen
      simp at hlt
      omega

end Estimator

end FF191008

namespace FF191008

/-! ### The integrand over the reals -/

section Analysis

open MeasureTheory ProbabilityTheory Filter Topology

theorem integral_f_interval (a b : ℝ) : (∫ x in a..b, f x) = F b - F a := by
  have hf : (fun x : ℝ => f x) = fun x => x + x ^ 2 + x ^ 3 := funext f_eq_poly
  rw [hf]
  have h1 : IntervalIntegrable (fun x : ℝ => x) volume a b :=
    continuous_id.intervalIntegrable a b
  have h2 : IntervalIntegrable (fun x : ℝ => x ^ 2) volume a b :=
    (continuous_pow 2).intervalIntegrable a b
  have h3 : IntervalIntegrable (fun x : ℝ => x ^ 3) volume a b :=
    (continuous_pow 3).intervalIntegrable a b
  rw [intervalIntegral.integral_add (h1.add h2) h3, intervalIntegral.integral_add h1 h2,
    integral_id, integral_pow, integral_pow]
  unfold F
  norm_num
  ring

theorem sum_map_range (x : ℕ → ℝ) (n : ℕ) :
    (((List.range n).map x).map f).sum = ∑ i in Finset.range n, f (x i) := by
  induction n with
  | zero => simp
  | succ n ih =>
    simp only [List.map_map] at ih
    simp [List.range_succ, Finset.sum_range_succ, ih]

theorem continuous_f : Continuous (f : ℝ → ℝ) := by
  show Continuous (fun x : ℝ => x + x * x + x * x * x)
  fun_prop

theorem measurable_f : Measurable (f : ℝ → ℝ) := continuous_f.measurable

/-- The mean of the integrand under the uniform law on `[a, b]`, `a < b`. -/
theorem integral_f_cond_Icc {a b : ℝ} (h : a < b) :
    ∫ x, f x ∂(ProbabilityTheory.cond volume (Set.Icc a b)) = (F b - F a) / (b - a) := by
  rw [ProbabilityTheory.cond, integral_smul_measure, Real.volume_Icc,
    integral_Icc_eq_integral_Ioc, ← intervalIntegral.integral_of_le h.le, integral_f_interval,
    ENNReal.toReal_inv, ENNReal.toReal_ofReal (sub_pos.2 h).le, smul_eq_mul]
  field_simp

/-- The mean of the integrand under the uniform law on the interval between
two distinct bounds, in either order. -/
theorem integral_f_uniform (a b : ℝ) (hab : a ≠ b) :
    ∫ x, f x ∂(ProbabilityTheory.cond volume (Set.uIcc a b)) = (F b - F a) / (b - a) := by
  rcases lt_or_gt_of_ne hab with h | h
  · rw [Set.uIcc_of_le h.le, integral_f_cond_Icc h]
  · rw [Set.uIcc_of_ge h.le, integral_f_cond_Icc h]
    have h1 : a - b ≠ 0 := sub_ne_zero.2 hab
    have h2 : b - a ≠ 0 := sub_ne_zero.2 (Ne.symm hab)
    field_simp
    ring

theorem integrable_f_uniform (a b : ℝ) (hab : a ≠ b) :
    Integrable (f : ℝ → ℝ) (ProbabilityTheory.cond volume (Set.uIcc a b)) := by
  have hI : IntegrableOn (f : ℝ → ℝ) (Set.uIcc a b) volume :=
    continuous_f.continuousOn.integrableOn_compact isCompact_uIcc
  refine Integrable.smul_measure hI ?_
  have hlt : min a b < max a b := min_lt_max.2 hab
  simp only [Set.uIcc, Real.volume_Icc, ne_eq, ENNReal.inv_eq_top, ENNReal.ofReal_eq_zero,
    not_le, sub_pos]
  exact hlt

/-! #### A sequence of pairwise independent uniform samples on the torus -/

/-- The representative in `(0, 1]` of a point of the circle. -/
theorem measurable_repr :
    Measurable (fun t : UnitAddCircle => ((AddCircle.equivIoc (1 : ℝ) 0 t : Set.Ioc (0 : ℝ) (0 + 1)) : ℝ)) :=
  measurable_subtype_coe.comp (AddCircle.measurableEquivIoc 1 0).measurable

theorem repr_coe {x : ℝ} (hx : x ∈ Set.Ioc (0 : ℝ) (0 + 1)) :
    ((AddCircle.equivIoc (1 : ℝ) 0 (x : UnitAddCircle) : Set.Ioc (0 : ℝ) (0 + 1)) : ℝ) = x := by
  have : (AddCircle.equivIoc (1 : ℝ) 0) (x : UnitAddCircle) = ⟨x, hx⟩ := by
    rw [Equiv.apply_eq_iff_eq_symm_apply]
    rfl
  rw [this]

theorem map_repr :
    Measure.map (fun t : UnitAddCircle => ((AddCircle.equivIoc (1 : ℝ) 0 t : Set.Ioc (0 : ℝ) (0 + 1)) : ℝ))
      volume = ProbabilityTheory.cond volume (Set.uIcc (0 : ℝ) 1) := by
  have hmk := UnitAddCircle.measurePreserving_mk 0
  rw [← hmk.map_eq, Measure.map_map measurable_repr hmk.measurable]
  have hae : ((fun t : UnitAddCircle =>
      ((AddCircle.equivIoc (1 : ℝ) 0 t : Set.Ioc (0 : ℝ) (0 + 1)) : ℝ)) ∘
        ((↑) : ℝ → UnitAddCircle)) =ᵐ[volume.restrict (Set.Ioc (0 : ℝ) (0 + 1))] id := by
    refine (ae_restrict_iff' measurableSet_Ioc).2 (Eventually.of_forall fun x hx => ?_)
    exact repr_coe hx
  rw [Measure.map_congr hae, Measure.map_id, Set.uIcc_of_le zero_le_one, ProbabilityTheory.cond,
    Real.volume_Icc, zero_add, Measure.restrict_congr_set Ioc_ae_eq_Icc]
  simp

/-- The shear `(x, y) ↦ (x + i • y, y)` of the torus preserves its measure. -/
theorem measurePreserving_shear (i : ℤ) :
    MeasurePreserving (fun p : UnitAddCircle × UnitAddCircle => (p.1 + i • p.2, p.2))
      ((volume : Measure UnitAddCircle).prod volume) ((volume : Measure UnitAddCircle).prod volume) := by
  have hA : MeasurePreserving (fun p : UnitAddCircle × UnitAddCircle => (p.1, p.2 + i • p.1))
      ((volume : Measure UnitAddCircle).prod volume)
      ((volume : Measure UnitAddCircle).prod volume) := by
    refine (MeasurePreserving.id (volume : Measure UnitAddCircle)).skew_product
      (g := fun y x => x + i • y) ?_ (Eventually.of_forall fun y => ?_)
    · exact measurable_snd.add (measurable_fst.const_smul i)
    · exact map_add_right_eq_self volume (i • y)
  have hs : MeasurePreserving (Prod.swap : UnitAddCircle × UnitAddCircle → _)
      ((volume : Measure UnitAddCircle).prod volume)
      ((volume : Measure UnitAddCircle).prod volume) := Measure.measurePreserving_swap
  exact (hs.comp hA).comp hs

/-- For `k ≠ 0`, `(s, y) ↦ (s, s + k • y)` preserves the measure of the torus. -/
theorem measurePreserving_skew (k : ℤ) (hk : k ≠ 0) :
    MeasurePreserving (fun p : UnitAddCircle × UnitAddCircle => (p.1, p.1 + k • p.2))
      ((volume : Measure UnitAddCircle).prod volume) ((volume : Measure UnitAddCircle).prod volume) := by
  refine (MeasurePreserving.id (volume : Measure UnitAddCircle)).skew_product
    (g := fun s y => s + k • y) ?_ (Eventually.of_forall fun s => ?_)
  · exact measurable_fst.add (measurable_snd.const_smul k)
  · have h1 : MeasurePreserving (fun y : UnitAddCircle => k • y) volume volume :=
      Measure.measurePreserving_zsmul volume hk
    have h2 : MeasurePreserving (fun y : UnitAddCircle => s + y) volume volume :=
      measurePreserving_add_left volume s
    exact (h2.comp h1).map_eq

/-- Two distinct lines `x + i • y`, `x + j • y` are jointly uniform on the torus. -/
theorem measurePreserving_pair (i j : ℤ) (hij : i ≠ j) :
    MeasurePreserving (fun p : UnitAddCircle × UnitAddCircle => (p.1 + i • p.2, p.1 + j • p.2))
      ((volume : Measure UnitAddCircle).prod volume) ((volume : Measure UnitAddCircle).prod volume) := by
  have h := (measurePreserving_skew (j - i) (sub_ne_zero.2 (Ne.symm hij))).comp
    (measurePreserving_shear i)
  convert h using 1
  funext p
  simp only [Function.comp_apply, Prod.mk.injEq, true_and]
  rw [sub_smul]
  abel

theorem measurePreserving_line (i : ℤ) :
    MeasurePreserving (fun p : UnitAddCircle × UnitAddCircle => p.1 + i • p.2)
      ((volume : Measure UnitAddCircle).prod volume) volume := by
  have hfst : MeasurePreserving (Prod.fst : UnitAddCircle × UnitAddCircle → UnitAddCircle)
      ((volume : Measure UnitAddCircle).prod volume) volume :=
    ⟨measurable_fst, by simp⟩
  exact hfst.comp (measurePreserving_shear i)

theorem measurable_sample (i : ℕ) :
    Measurable (fun p : UnitAddCircle × UnitAddCircle =>
      ((AddCircle.equivIoc (1 : ℝ) 0 (p.1 + (i : ℤ) • p.2) : Set.Ioc (0 : ℝ) (0 + 1)) : ℝ)) :=
  measurable_repr.comp (measurePreserving_line i).measurable

theorem map_sample (i : ℕ) :
    Measure.map (fun p : UnitAddCircle × UnitAddCircle =>
      ((AddCircle.equivIoc (1 : ℝ) 0 (p.1 + (i : ℤ) • p.2) : Set.Ioc (0 : ℝ) (0 + 1)) : ℝ))
      ((volume : Measure UnitAddCircle).prod volume) =
    ProbabilityTheory.cond volume (Set.uIcc (0 : ℝ) 1) := by
  have hrepr : MeasurePreserving
      (fun t : UnitAddCircle => ((AddCircle.equivIoc (1 : ℝ) 0 t : Set.Ioc (0 : ℝ) (0 + 1)) : ℝ))
      volume (ProbabilityTheory.cond volume (Set.uIcc (0 : ℝ) 1)) := ⟨measurable_repr, map_repr⟩
  exact (hrepr.comp (measurePreserving_line i)).map_eq

theorem indepFun_sample (i j : ℕ) (hij : i ≠ j) :
    IndepFun
      (fun p : UnitAddCircle × UnitAddCircle =>
        ((AddCircle.equivIoc (1 : ℝ) 0 (p.1 + (i : ℤ) • p.2) : Set.Ioc (0 : ℝ) (0 + 1)) : ℝ))
      (fun p : UnitAddCircle × UnitAddCircle =>
        ((AddCircle.equivIoc (1 : ℝ) 0 (p.1 + (j : ℤ) • p.2) : Set.Ioc (0 : ℝ) (0 + 1)) : ℝ))
      ((volume : Measure UnitAddCircle).prod volume) := by
  rw [indepFun_iff_map_prod_eq_prod_map_map (measurable_sample i).aemeasurable
    (measurable_sample j).aemeasurable, map_sample i, map_sample j]
  have hpair := measurePreserving_pair (i : ℤ) (j : ℤ) (by exact_mod_cast hij)
  have hrr : Measurable (Prod.map
      (fun t : UnitAddCircle => ((AddCircle.equivIoc (1 : ℝ) 0 t : Set.Ioc (0 : ℝ) (0 + 1)) : ℝ))
      (fun t : UnitAddCircle => ((AddCircle.equivIoc (1 : ℝ) 0 t : Set.Ioc (0 : ℝ) (0 + 1)) : ℝ))) :=
    measurable_repr.prod_map measurable_repr
  have hprod : MeasurePreserving (Prod.map
      (fun t : UnitAddCircle => ((AddCircle.equivIoc (1 : ℝ) 0 t : Set.Ioc (0 : ℝ) (0 + 1)) : ℝ))
      (fun t : UnitAddCircle => ((AddCircle.equivIoc (1 : ℝ) 0 t : Set.Ioc (0 : ℝ) (0 + 1)) : ℝ)))
      ((volume : Measure UnitAddCircle).prod volume)
      ((ProbabilityTheory.cond volume (Set.uIcc (0 : ℝ) 1)).prod
        (ProbabilityTheory.cond volume (Set.uIcc (0 : ℝ) 1))) :=
    ⟨hrr, by rw [← Measure.map_prod_map _ _ measurable_repr measurable_repr, map_repr]⟩
  exact (hprod.comp hpair).map_eq

/-- C7: for all real `a`, `b` the integral from `a` to `b` of the integrand
`f` is `F b - F a` with `F x = x^2/2 + x^3/3 + x^4/4`; from `0` to `1` it is
`1/2 + 1/3 + 1/4 = 13/12`. -/
theorem integral_f_closed_form (a b : ℝ) :
    (∫ x in a..b, f x) = F b - F a ∧
    (∀ x : ℝ, F x = x ^ 2 / 2 + x ^ 3 / 3 + x ^ 4 / 4) ∧
    (∫ x in (0 : ℝ)..1, f x) = 1 / 2 + 1 / 3 + 1 / 4 ∧
    (1 / 2 + 1 / 3 + 1 / 4 : ℝ) = 13 / 12 := by
  refine ⟨integral_f_interval a b, fun x => rfl, ?_, by norm_num⟩
  rw [integral_f_interval]
  unfold F
  norm_num

/-- The estimate of the specification over independent uniform samples
converges almost surely to the integral. -/
theorem estimate_tendsto {Ω : Type} [MeasurableSpace Ω] (μ : Measure Ω)
    [IsProbabilityMeasure μ] (a b : ℝ) (X : ℕ → Ω → ℝ) (hmeas : ∀ i, Measurable (X i))
    (hindep : Pairwise fun i j => IndepFun (X i) (X j) μ)
    (hlaw : ∀ i, μ.map (X i) =
      if a = b then Measure.dirac a else ProbabilityTheory.cond volume (Set.uIcc a b)) :
    ∀ᵐ ω ∂μ, Tendsto (fun n : ℕ => estimate a b ((List.range n).map fun i => X i ω)) atTop
      (𝓝 (F b - F a)) := by
  by_cases hab : a = b
  · subst hab
    refine Eventually.of_forall (fun ω => ?_)
    simp [estimate]
  · have hlaw' : ∀ i, μ.map (X i) = ProbabilityTheory.cond volume (Set.uIcc a b) := by
      intro i; rw [hlaw i, if_neg hab]
    have hint : Integrable (fun ω => f (X 0 ω)) μ := by
      have h := integrable_f_uniform a b hab
      rw [← hlaw' 0] at h
      exact (integrable_map_measure measurable_f.aestronglyMeasurable
        (hmeas 0).aemeasurable).1 h
    have hind : Pairwise (Function.onFun (fun x y => IndepFun x y μ) (fun i ω => f (X i ω))) :=
      fun i j hij => (hindep hij).comp measurable_f measurable_f
    have hid : ∀ i, IdentDistrib (fun ω => f (X i ω)) (fun ω => f (X 0 ω)) μ μ := fun i =>
      (IdentDistrib.mk (hmeas i).aemeasurable (hmeas 0).aemeasurable
        (by rw [hlaw' i, hlaw' 0])).comp measurable_f
    have hslln := strong_law_ae (fun i ω => f (X i ω)) hint hind hid
    have hmean : ∫ ω, f (X 0 ω) ∂μ = (F b - F a) / (b - a) := by
      rw [← integral_f_uniform a b hab, ← hlaw' 0,
        integral_map (hmeas 0).aemeasurable measurable_f.aestronglyMeasurable]
    have hne : b - a ≠ 0 := sub_ne_zero.2 (Ne.symm hab)
    filter_upwards [hslln] with ω hω
    rw [hmean] at hω
    have h := hω.const_mul (b - a)
    rw [mul_div_cancel₀ _ hne] at h
    refine h.congr (fun n => ?_)
    simp only [estimate, sum_map_range, List.length_map, List.length_range, smul_eq_mul]
    ring

/-- The values a stream sampler returns from call number `g` on. -/
theorem samples_stream (x : ℕ → ℝ) (a b : Dbl ℝ) :
    ∀ (n g : ℕ), samples (streamSampler x) a b n g = (List.range' g n).map fun i => Dbl.fin (x i)
  | 0, _ => rfl
  | n + 1, g => by
    rw [samples, List.range'_succ, List.map_cons]
    show Dbl.fin (x g) :: samples (streamSampler x) a b n (g + 1) = _
    rw [samples_stream x a b n (g + 1)]

/-- The report of `main`, in exact arithmetic, on the first `n` terms of a
sequence of samples. -/
theorem main_stream (x : ℕ → ℝ) (a b : ℝ) (n w : ℕ) (hn : 0 < n) (hw : n + 1 < 2 ^ w) :
    main Dbl.exact w (streamSampler x) 0 (Dbl.fin a) (Dbl.fin b) n (n + 1) =
      some { printed := Dbl.fin (estimate a b ((List.range n).map x)),
             sum := Dbl.fin (((List.range n).map fun i => f (x i)).sum),
             drawn := (List.range n).map fun i => Dbl.fin (x i) } := by
  have hdraw : samples (streamSampler x) (Dbl.fin a) (Dbl.fin b) n 0 =
      ((List.range n).map x).map Dbl.fin := by
    rw [samples_stream, List.range_eq_range', List.map_map]
    rfl
  have h := (main_fin_spec w (streamSampler x) 0 a b n ((List.range n).map x) hn (by omega)
    (by simp) hdraw).1 hw
  rw [h]
  simp [List.map_map, Function.comp_def]

/-- C8: for all real `a`, `b`, if the samples `X 0, X 1, ...` are random
variables on a probability space that are independent (pairwise independence
suffices) and each uniformly distributed on the closed interval between `a`
and `b` (the point mass at `a` when `a = b`), then almost surely: for every
`n > 0` and every counter width `w` with `n + 1 < 2 ^ w`, `main` run in exact
arithmetic on a sampler returning `X 0 ω, X 1 ω, ...` draws the first `n`
samples and prints a value `v n`, and `v n` tends to `F b - F a` as `n` tends
to infinity. -/
theorem estimate_converges_almost_surely {Ω : Type} [MeasurableSpace Ω] (μ : Measure Ω)
    [IsProbabilityMeasure μ] (a b : ℝ) (X : ℕ → Ω → ℝ) (hmeas : ∀ i, Measurable (X i))
    (hindep : Pairwise fun i j => IndepFun (X i) (X j) μ)
    (hlaw : ∀ i, μ.map (X i) =
      if a = b then Measure.dirac a else ProbabilityTheory.cond volume (Set.uIcc a b)) :
    ∀ᵐ ω ∂μ, ∃ v : ℕ → ℝ,
      (∀ n w : ℕ, 0 < n → n + 1 < 2 ^ w →
        main Dbl.exact w (streamSampler fun i => X i ω) 0 (Dbl.fin a) (Dbl.fin b) n (n + 1) =
          some { printed := Dbl.fin (v n),
                 sum := Dbl.fin (((List.range n).map fun i => f (X i ω)).sum),
                 drawn := (List.range n).map fun i => Dbl.fin (X i ω) }) ∧
      Tendsto v atTop (𝓝 (F b - F a)) := by
  filter_upwards [estimate_tendsto μ a b X hmeas hindep hlaw] with ω hω
  exact ⟨fun n => estimate a b ((List.range n).map fun i => X i ω),
    fun n w hn hw => main_stream (fun i => X i ω) a b n w hn hw, hω⟩

/-- Witness of C8: on the torus `(ℝ / ℤ) × (ℝ / ℤ)` with its Haar probability
measure, sample `i` at the point `(x, y)` is the representative in `(0, 1]`
of `x + i • y`; the samples are pairwise independent and uniform on `[0, 1]`,
and what `main` prints for the bounds `0` and `1` tends to `F 1 - F 0`. -/
theorem estimate_converges_almost_surely_witness :
    ∀ᵐ ω ∂((volume : Measure UnitAddCircle).prod (volume : Measure UnitAddCircle)),
      ∃ v : ℕ → ℝ,
        (∀ n w : ℕ, 0 < n → n + 1 < 2 ^ w →
          main Dbl.exact w (streamSampler fun i : ℕ =>
              ((AddCircle.equivIoc (1 : ℝ) 0 (ω.1 + (i : ℤ) • ω.2) :
                Set.Ioc (0 : ℝ) (0 + 1)) : ℝ)) 0 (Dbl.fin 0) (Dbl.fin 1) n (n + 1) =
            some { printed := Dbl.fin (v n),
                   sum := Dbl.fin (((List.range n).map fun i : ℕ =>
                     f ((AddCircle.equivIoc (1 : ℝ) 0 (ω.1 + (i : ℤ) • ω.2) :
                       Set.Ioc (0 : ℝ) (0 + 1)) : ℝ)).sum),
                   drawn := (List.range n).map fun i : ℕ =>
                     Dbl.fin ((AddCircle.equivIoc (1 : ℝ) 0 (ω.1 + (i : ℤ) • ω.2) :
                       Set.Ioc (0 : ℝ) (0 + 1)) : ℝ) }) ∧
        Tendsto v atTop (𝓝 (F (1 : ℝ) - F 0)) :=
  estimate_converges_almost_surely ((volume : Measure UnitAddCircle).prod volume) 0 1
    (fun (i : ℕ) (p : UnitAddCircle × UnitAddCircle) =>
      ((AddCircle.equivIoc (1 : ℝ) 0 (p.1 + (i : ℤ) • p.2) : Set.Ioc (0 : ℝ) (0 + 1)) : ℝ))
    measurable_sample (fun i j hij => indepFun_sample i j hij)
    (fun i => by rw [if_neg zero_ne_one]; exact map_sample i)

end Analysis

end FF191008

namespace FF191008

/-! ### Concrete runs -/

section Runs

variable {K : Type} [LinearOrderedField K]

/-- The integrand overflows to `+∞` as soon as the square of a positive
argument does. -/
theorem f_dbl_overflow (R : K → Dbl K) {x : K} (hx : 0 < x)
    (hov : R (x * x) = Dbl.inf false) : f_dbl R (Dbl.fin x) = Dbl.inf false := by
  have h1 : Dbl.mul R (Dbl.fin x) (Dbl.fin x) = Dbl.inf false := hov
  rw [f_dbl_eq, h1]
  simp [Dbl.add, Dbl.mul, hx.ne', not_lt.2 hx.le]

omit [LinearOrderedField K] in
theorem report_eta (r : Report K) :
    r = { printed := r.printed, sum := r.sum, drawn := r.drawn } := rfl

end Runs

/-- The square of a power of two from `2 ^ 512` overflows. -/
theorem binary64_sq_overflow (k : ℕ) (hk : 512 ≤ k) :
    binary64 ((2 : ℚ) ^ k * 2 ^ k) = Dbl.inf false := by
  have hsq : ((2 : ℚ) ^ k * 2 ^ k) = (2 : ℚ) ^ ((k + k : ℕ) : ℤ) := by
    rw [zpow_natCast, ← pow_add]
  rw [hsq]
  exact binary64_zpow_overflow _ (by omega)

/-- In binary64 arithmetic, equal bounds `x` with one sample `x` whose square
overflows: the sum is `+∞` and not-a-number is printed. -/
theorem zero_width_overflow (x : ℚ) (hx : 0 < x) (hov : binary64 (x * x) = Dbl.inf false) :
    main binary64 64 replaySampler [x] (Dbl.fin x) (Dbl.fin x) 1 2 =
      some { printed := Dbl.nan, sum := Dbl.inf false, drawn := [Dbl.fin x] } := by
  have hdrawn : (closedReport binary64 replaySampler [x] (Dbl.fin x) (Dbl.fin x) 1).drawn =
      [Dbl.fin x] := rfl
  have hsum : (closedReport binary64 replaySampler [x] (Dbl.fin x) (Dbl.fin x) 1).sum =
      Dbl.inf false := by
    show Dbl.add binary64 (Dbl.fin 0) (f_dbl binary64 (Dbl.fin x)) = Dbl.inf false
    rw [f_dbl_overflow binary64 hx hov]
    rfl
  have hprinted : (closedReport binary64 replaySampler [x] (Dbl.fin x) (Dbl.fin x) 1).printed =
      Dbl.nan := by
    apply (closedReport_zero_width binary64 binary64_zero 64 (countsConvert_binary64 64 le_rfl)
      replaySampler [x] x 1 (by norm_num) (by norm_num)).2
    rw [hsum]
    exact fun h => h
  rw [main_total binary64 64 replaySampler _ _ _ 1 (by norm_num),
    report_eta (closedReport _ _ _ _ _ _), hprinted, hsum, hdrawn]

/-- Witness of C1: bounds `1` and `3`, three samples `1, 2, 3` on a 64-bit
counter: `(2 / 3) * (3 + 14 + 39) = 112 / 3`. -/
theorem estimate_formula_witness :
    main Dbl.exact 64 replaySampler [1, 2, 3] (Dbl.fin 1) (Dbl.fin 3) 3 4 =
      some { printed := Dbl.fin (112 / 3), sum := Dbl.fin 56,
             drawn := [Dbl.fin 1, Dbl.fin 2, Dbl.fin 3] } := by
  have h := (estimate_formula 64 replaySampler [1, 2, 3] 1 3 3 [1, 2, 3]
    (by decide) (by norm_num) rfl rfl).1 (by norm_num)
  rw [h]
  norm_num

/-- Counterexample to C4 as stated, in binary64 arithmetic on a 64-bit
counter: `a = b = 2 ^ 600` with one sample `2 ^ 600`.  The square of the
sample overflows, the sum is `+∞`, and `0 * ∞` is printed: not-a-number, not
`0`. -/
theorem zero_width_counterexample :
    main binary64 64 replaySampler [2 ^ 600] (Dbl.fin (2 ^ 600)) (Dbl.fin (2 ^ 600)) 1 2 =
      some { printed := Dbl.nan, sum := Dbl.inf false, drawn := [Dbl.fin (2 ^ 600)] } := by
  have hpos : (0 : ℚ) < 2 ^ 600 := pow_pos (by norm_num) _
  exact zero_width_overflow _ hpos (binary64_sq_overflow 600 (by norm_num))

/-- Witness of C4 as amended, in binary64 arithmetic on a 64-bit counter:
bounds `5` and `5`, two samples. -/
theorem zero_width_estimate_witness :
    ∃ r, main binary64 64 replaySampler [5, 5] (Dbl.fin 5) (Dbl.fin 5) 2 3 = some r ∧
      r.drawn.length = 2 ∧
      (Dbl.IsFinite r.sum → r.printed = Dbl.fin 0) ∧
      (¬ Dbl.IsFinite r.sum → r.printed = Dbl.nan) := by
  obtain ⟨hex, hall, _⟩ :=
    zero_width_estimate binary64 binary64_zero 64 (countsConvert_binary64 64 le_rfl)
      replaySampler [5, 5] 5 5 2 rfl (by decide) (by norm_num)
  obtain ⟨r, hr, hlen⟩ := hex (by norm_num)
  exact ⟨r, hr, hlen, hall 3 r hr⟩

/-- Witness of C5: bounds `1`, `3` and `3`, `1` with the samples `1, 2, 3`. -/
theorem swap_bounds_negates_witness :
    ∃ v s,
      main Dbl.exact 64 replaySampler [1, 2, 3] (Dbl.fin 1) (Dbl.fin 3) 3 4 =
        some { printed := Dbl.fin v, sum := s, drawn := [1, 2, 3].map Dbl.fin } ∧
      main Dbl.exact 64 replaySampler [1, 2, 3] (Dbl.fin 3) (Dbl.fin 1) 3 4 =
        some { printed := Dbl.fin (-v), sum := s, drawn := [1, 2, 3].map Dbl.fin } :=
  (swap_bounds_negates 64 replaySampler replaySampler [1, 2, 3] [1, 2, 3] 1 3 3 [1, 2, 3]
    (by decide) (by norm_num) rfl rfl rfl).1 (by norm_num)

/-- In binary64 arithmetic, bounds `x < y` with one sample `x`, where `x` and
`y - x = x` are representable and the square of `x` underflows to zero: the
sum is `x` and `0` is printed. -/
theorem underflow_run (x y : ℚ) (hx : binary64 x = Dbl.fin x)
    (hxx : binary64 (x * x) = Dbl.fin 0) (hd : binary64 (y - x) = Dbl.fin x) :
    main binary64 64 replaySampler [x] (Dbl.fin x) (Dbl.fin y) 1 2 =
      some { printed := Dbl.fin 0, sum := Dbl.fin x, drawn := [Dbl.fin x] } := by
  rw [main_total binary64 64 replaySampler _ _ _ 1 (by norm_num)]
  have hf : f_dbl binary64 (Dbl.fin x) = Dbl.fin x := by
    rw [f_dbl_eq]
    simp [Dbl.add, Dbl.mul, hxx, hx, binary64_zero]
  simp [closedReport, sumOver, samples, replaySampler, hf, Dbl.sub_fin, hd, Dbl.ofNat,
    binary64_one, Dbl.div, Dbl.mul, Dbl.add, hx, hxx]

/-- Counterexample to C6 as stated, in binary64 arithmetic on a 64-bit
counter.  Bounds `a = -2 < b = -1`, one sample `-1` in `[-2, -1]`: every
operation is exact and the printed estimate is `-1`, which is not positive.
Positive bounds `a = 2 ^ (-600) < b = 2 ^ (-599)`, one sample `2 ^ (-600)`:
the final product underflows and `0` is printed, which is not positive
either. -/
theorem sign_follows_bounds_counterexample :
    ((-2 : ℚ) < -1 ∧ ((-2 : ℚ) ≤ -1 ∧ (-1 : ℚ) ≤ -1) ∧
      main binary64 64 replaySampler [-1] (Dbl.fin (-2)) (Dbl.fin (-1)) 1 2 =
        some { printed := Dbl.fin (-1), sum := Dbl.fin (-1), drawn := [Dbl.fin (-1)] } ∧
      ¬ (0 : ℚ) < -1) ∧
    ((0 : ℚ) < 2 ^ (-600 : ℤ) ∧ (2 : ℚ) ^ (-600 : ℤ) < 2 ^ (-599 : ℤ) ∧
      main binary64 64 replaySampler [2 ^ (-600 : ℤ)] (Dbl.fin (2 ^ (-600 : ℤ)))
          (Dbl.fin (2 ^ (-599 : ℤ))) 1 2 =
        some { printed := Dbl.fin 0, sum := Dbl.fin (2 ^ (-600 : ℤ)),
               drawn := [Dbl.fin (2 ^ (-600 : ℤ))] }) := by
  have h2 : (2 : ℚ) ^ (-599 : ℤ) = 2 * 2 ^ (-600 : ℤ) := by
    rw [show (-599 : ℤ) = -600 + 1 by norm_num, zpow_add₀ (by norm_num : (2 : ℚ) ≠ 0)]
    norm_num
  have hpos : (0 : ℚ) < 2 ^ (-600 : ℤ) := zpow_pos (by norm_num) _
  refine ⟨⟨by norm_num, by norm_num, ?_, by norm_num⟩, hpos, by rw [h2]; linarith, ?_⟩
  · rw [main_total binary64 64 replaySampler _ _ _ 1 (by norm_num)]
    norm_num [closedReport, sumOver, samples, replaySampler, f_dbl_eq, Dbl.add, Dbl.mul,
      Dbl.sub, Dbl.neg, Dbl.div, Dbl.ofNat, binary64_zero, binary64_one, binary64_neg_one]
  · apply underflow_run
    · exact binary64_zpow _ (by norm_num) (by norm_num)
    · rw [← zpow_add₀ (by norm_num : (2 : ℚ) ≠ 0)]
      exact binary64_zpow_underflow _ (by norm_num)
    · rw [h2, show (2 : ℚ) * 2 ^ (-600 : ℤ) - 2 ^ (-600 : ℤ) = 2 ^ (-600 : ℤ) by ring]
      exact binary64_zpow _ (by norm_num) (by norm_num)

/-- Witness of C6 as amended: positive bounds `1 < 2` with the sample `1`;
the exact estimate is positive, and the binary64 estimate is not negative. -/
theorem estimate_sign_witness :
    (∃ v : ℚ,
      (∃ r, main Dbl.exact 64 replaySampler [1] (Dbl.fin 1) (Dbl.fin 2) 1 2 = some r ∧
        r.printed = Dbl.fin v) ∧ 0 < v) ∧
    (∃ r, main binary64 64 replaySampler [1] (Dbl.fin 1) (Dbl.fin 2) 1 2 = some r ∧
      (Dbl.NonNeg r.printed ∨ r.printed = Dbl.nan)) := by
  obtain ⟨⟨v, h1, _, _, hpos, _⟩, hR⟩ :=
    estimate_sign 64 replaySampler [1] 1 2 1 [1] (by decide) (by norm_num) rfl rfl
      (by intro x hx; simp at hx; subst hx; norm_num)
  obtain ⟨hex, hall⟩ := hR binary64 isRounding_binary64 (countsConvert_binary64 64 le_rfl)
  obtain ⟨r, hr⟩ := hex (by norm_num)
  exact ⟨⟨v, h1 (by norm_num), (hpos (by norm_num) (by norm_num)).1 (by norm_num)⟩,
    r, hr, ((hall 2 r hr).2 (by norm_num) (by norm_num)).1 (by norm_num)⟩

/-- Witness of C10: bounds `1 <= 3` and the samples `1, 2, 3`. -/
theorem estimate_between_endpoint_values_witness :
    ∃ v : ℚ,
      (∃ r, main Dbl.exact 64 replaySampler [1, 2, 3] (Dbl.fin 1) (Dbl.fin 3) 3 4 = some r ∧
        r.printed = Dbl.fin v) ∧
      (3 - 1) * f (1 : ℚ) ≤ v ∧ v ≤ (3 - 1) * f (3 : ℚ) := by
  obtain ⟨⟨v, h1, _, hlo, hhi⟩, _⟩ :=
    estimate_between_endpoint_values 64 replaySampler [1, 2, 3] 1 3 3 [1, 2, 3]
      (by norm_num) (by decide) (by norm_num) rfl rfl
      (by intro x hx; simp at hx; rcases hx with rfl | rfl | rfl <;> norm_num)
  exact ⟨v, h1 (by norm_num), hlo, hhi⟩

/-- Counterexample to C2 as stated, in binary64 arithmetic: bounds `0` and
`1` with `n = 0` on a 64-bit counter; `main` returns normally after one test
of the loop condition, having printed not-a-number. -/
theorem zero_count_counterexample :
    main binary64 64 replaySampler [] (Dbl.fin 0) (Dbl.fin 1) 0 1 =
      some { printed := Dbl.nan, sum := Dbl.fin 0, drawn := [] } := by
  simp [main, loop, loop_step, Dbl.ofNat, binary64_zero, Dbl.div_zero_mul_zero]

/-- Witness of C2 as amended, in binary64 arithmetic on a 64-bit counter with
bounds `0` and `1`. -/
theorem zero_count_prints_nan_witness :
    1 < 2 ^ 64 ∧
    main binary64 64 replaySampler [1] (Dbl.fin 0) (Dbl.fin 1) 0 1 =
      some { printed := Dbl.nan, sum := Dbl.fin 0, drawn := [] } :=
  ⟨by norm_num, (zero_count_prints_nan binary64 binary64_zero 64 replaySampler [1]
    (Dbl.fin 0) (Dbl.fin 1) (by norm_num)).1⟩

end FF191008

namespace DynamicArrays

/-- C9 on the path where `realloc` fails after three successful allocations:
the blocks of `f_arr` (0) and `i_arr1` (1) are released once each, the block
that `calloc` returned for `i_arr2` (2) is never released and is still
allocated when the function returns. -/
theorem realloc_failure_leaks_i_arr2 :
    examples_of_dynamic_arrays true true true .failed emptyHeap =
      { next := 3, live := [2], released := [1, 0] } ∧
    allReleasedOnce emptyHeap
      (examples_of_dynamic_arrays true true true .failed emptyHeap) = false := by
  decide

/-- On every other combination of results of the four allocation calls, each
block the function obtained is released exactly once and none stays
allocated. -/
theorem other_paths_release_once (malloc1 malloc2 calloc3 : Bool) (realloc4 : ReallocOutcome) :
    ¬ (malloc1 = true ∧ malloc2 = true ∧ calloc3 = true ∧ realloc4 = .failed) →
    allReleasedOnce emptyHeap
      (examples_of_dynamic_arrays malloc1 malloc2 calloc3 realloc4 emptyHeap) = true := by
  cases malloc1 <;> cases malloc2 <;> cases calloc3 <;> cases realloc4 <;> decide

end DynamicArrays
